import Mathlib

/-!
Shallow embedding of `src/ir/ana/peg_dom.c` (PEG dominator-tree analysis).

Modelling conventions:
* An `ir_node` is identified by a natural number (its identity).  The phase
  map `phase_get_irn_data` is a function `Nat → Option PdNode`; a `pd_node *`
  pointer is identified with the `irn` id of the node it shadows (the phase
  map is a 1:1 association, so this identification is faithful; the `irn`
  field stored inside the record mirrors the C field of the same name).
* C `int` counters are modelled by `Nat`: all index values in the code are
  obtained by starting from 0 and incrementing, so they are non-negative and
  far from overflow for any graph under consideration.
* `plist_t` is a `List Nat` of child ids; `plist_insert_back` is append,
  `plist_find_value`/`plist_erase` is `List.erase` (erase first occurrence).
* Unbounded C loops/recursions are given an explicit fuel argument; running
  out of fuel (or dereferencing a null pointer inside such a loop) yields
  `none`/`.error .outOfFuel`, modelling non-termination or a crash.
* A failing `assert` is modelled by `.error .assertFail`; an unchecked null
  pointer dereference at a query entry point by `.error .nullDeref`.
* The dependence graph collaborator is a structure `PEG`: `deps n` is the
  ordered operand list (`get_irn_arity`/`get_irn_n`), `uses n` enumerates the
  out-edges (`foreach_out_edge`, i.e. the nodes having `n` as an operand),
  `sink` is the return node fetched at the top of `pd_init`.
-/

deriving instance DecidableEq for Except

namespace PegDom

/-- Outcomes of running a piece of the analysis: a failed `assert`, an
unchecked null-pointer dereference, or exhausting the fuel that models an
unbounded loop. -/
inductive PdErr where
  | assertFail
  | nullDeref
  | outOfFuel
deriving DecidableEq, Repr

/-- `pd_node` from peg_dom.c: the DomNode shadow of one ir_node. -/
structure PdNode where
  irn : Nat
  defined : Bool
  index : Nat
  max_index : Nat
  children : List Nat
  parent : Option Nat
deriving DecidableEq, Repr

/-- The phase map `ir_phase`: ir_node id ↦ its DomNode shadow (if created). -/
abbrev PdMap := Nat → Option PdNode

def emptyMap : PdMap := fun _ => none

/-- Store a record under a key (pointer write through the phase map). -/
def setPd (σ : PdMap) (k : Nat) (v : PdNode) : PdMap :=
  fun n => if n = k then some v else σ n

/-- The dependence-graph collaborator interface used by the analysis. -/
structure PEG where
  sink : Nat
  deps : Nat → List Nat
  uses : Nat → List Nat

/-- `pd_init_node`: fresh zero-initialised record with an empty child list
(`OALLOCZ` + `plist_obstack_new`). -/
def pd_init_node : PdNode :=
  { irn := 0, defined := false, index := 0, max_index := 0,
    children := [], parent := none }

/-- `phase_get_or_set_irn_data`: fetch the shadow, creating it if absent. -/
def phase_get_or_set (σ : PdMap) (irn : Nat) : PdNode × PdMap :=
  match σ irn with
  | some pdn => (pdn, σ)
  | none => (pd_init_node, setPd σ irn pd_init_node)

/-- The detach step of `pd_set_parent`: remove `child` from its old
parent's child list if it has a parent (`plist_find_value`/`plist_erase` is
erase-first-occurrence; the C code asserts the element is found, and on a
violating state the erase is a no-op, matching the NDEBUG build). -/
def pd_detach (σ : PdMap) (child : Nat) : PdMap :=
  match σ child with
  | some c =>
    match c.parent with
    | some oldp =>
      match σ oldp with
      | some op => setPd σ oldp { op with children := op.children.erase child }
      | none => σ
    | none => σ
  | none => σ

/-- `child->parent = parent;` -/
def pd_attach_parent (σ : PdMap) (parent child : Nat) : PdMap :=
  match σ child with
  | some c => setPd σ child { c with parent := some parent }
  | none => σ

/-- `plist_insert_back(parent->children, child);` -/
def pd_append_child (σ : PdMap) (parent child : Nat) : PdMap :=
  match σ parent with
  | some p => setPd σ parent { p with children := p.children ++ [child] }
  | none => σ

/-- `pd_set_parent`: detach `child` from the old parent's child list, set
`child->parent := parent`, append `child` to the new parent's child list. -/
def pd_set_parent (σ : PdMap) (parent child : Nat) : PdMap :=
  pd_append_child (pd_attach_parent (pd_detach σ child) parent child)
    parent child

/-! ### Post-order index assignment (`pd_compute_indices_post`)

The fueled recursions below are structural on the fuel argument; each
`for`-loop body is a separate function taking the recursive call (already
applied to the decremented fuel) as its first argument, so that the whole
pipeline reduces inside the kernel. -/

/-- The `for` loop over `get_irn_arity`/`get_irn_n` inside
`pd_compute_indices_post`, threading the counter left to right.  `recur` is
the recursive call. -/
def pd_post_deps
    (recur : Nat → List Nat → PdMap → Nat → Option (List Nat × PdMap × Nat)) :
    List Nat → List Nat → PdMap → Nat → Option (List Nat × PdMap × Nat)
  | [], V, σ, c => some (V, σ, c)
  | d :: ds, V, σ, c =>
    match recur d V σ c with
    | none => none
    | some (V', σ', c') => pd_post_deps recur ds V' σ' c'

/-- `pd_compute_indices_post`: depth-first walk over dependency edges from
`irn`; on exit from a node, create/fetch its shadow and assign the next
post-order index.  `V` is the visited set of the current `irg` visited
generation.  Fueled: `none` models non-termination (cyclic dependencies). -/
def pd_compute_indices_post (G : PEG) :
    Nat → Nat → List Nat → PdMap → Nat → Option (List Nat × PdMap × Nat)
  | 0, _, _, _, _ => none
  | fuel + 1, irn, V, σ, counter =>
    if irn ∈ V then some (V, σ, counter)
    else
      match pd_post_deps (pd_compute_indices_post G fuel) (G.deps irn)
          (irn :: V) σ counter with
      | none => none
      | some (V', σ', c') =>
        some (V', setPd (phase_get_or_set σ' irn).2 irn
          { (phase_get_or_set σ' irn).1 with irn := irn, index := c' }, c' + 1)

/-! ### Intersection walk (`pd_compute_intersect`) -/

/-- `pd_compute_intersect`: while the two candidates differ, advance the one
with the strictly smaller `index` to its parent.  Fueled; `none` models the
infinite loop on two distinct nodes of equal index, a null-parent
dereference, or fuel exhaustion. -/
def pd_compute_intersect (σ : PdMap) (fuel : Nat) (lhs rhs : Nat) : Option Nat :=
  match fuel with
  | 0 => none
  | fuel + 1 =>
    if lhs = rhs then some lhs
    else
      match σ lhs, σ rhs with
      | some l, some r =>
        if l.index < r.index then
          match l.parent with
          | some lp => pd_compute_intersect σ fuel lp rhs
          | none => none
        else if r.index < l.index then
          match r.parent with
          | some rp => pd_compute_intersect σ fuel lhs rp
          | none => none
        else none
      | _, _ => none

/-! ### One solver pass (`pd_compute`) -/

/-- First `foreach_out_edge` loop of `pd_compute`: find the first use whose
shadow exists and is `defined` (uses without a shadow are skipped). -/
def pd_find_idom (σ : PdMap) : List Nat → Option Nat
  | [] => none
  | u :: us =>
    match σ u with
    | none => pd_find_idom σ us
    | some pdu => if pdu.defined then some u else pd_find_idom σ us

/-- Second `foreach_out_edge` loop of `pd_compute`: fold every defined use
distinct from the running candidate into it via `pd_compute_intersect`. -/
def pd_intersect_uses (σ : PdMap) (ifuel : Nat) : List Nat → Nat → Option Nat
  | [], idom => some idom
  | u :: us, idom =>
    match σ u with
    | none => pd_intersect_uses σ ifuel us idom
    | some pdu =>
      if u ≠ idom ∧ pdu.defined = true then
        match pd_compute_intersect σ ifuel u idom with
        | none => none
        | some i => pd_intersect_uses σ ifuel us i
      else pd_intersect_uses σ ifuel us idom

/-- `pdn->defined = 1;` after a reparenting. -/
def pd_mark_defined (σ : PdMap) (irn : Nat) : PdMap :=
  match σ irn with
  | some pdn => setPd σ irn { pdn with defined := true }
  | none => σ

/-- The trailing `for` loop of `pd_compute` over the dependency edges,
or-ing the change flags together.  `recur` is the recursive call. -/
def pd_compute_deps
    (recur : Nat → List Nat → PdMap → Except PdErr (List Nat × PdMap × Bool)) :
    List Nat → List Nat → PdMap → Bool →
    Except PdErr (List Nat × PdMap × Bool)
  | [], V, σ, changed => .ok (V, σ, changed)
  | d :: ds, V, σ, changed =>
    match recur d V σ with
    | .error e => .error e
    | .ok (V', σ', ch) => pd_compute_deps recur ds V' σ' (changed || ch)

/-- `pd_compute`: one visit of the solver pass.  Skips visited nodes; for a
non-root node finds the first defined use (`assert(pd_idom)` fires if there
is none), intersects the remaining defined uses into it, reparents the node
when the candidate differs from its current parent (setting `defined` and
the change flag), then recurses into the dependency edges. -/
def pd_compute (G : PEG) (root : Nat) :
    Nat → Nat → List Nat → PdMap → Except PdErr (List Nat × PdMap × Bool)
  | 0, _, _, _ => .error .outOfFuel
  | fuel + 1, irn, V, σ =>
    if irn ∈ V then .ok (V, σ, false)
    else
      if irn = root then
        pd_compute_deps (pd_compute G root fuel) (G.deps irn) (irn :: V) σ false
      else
        match σ irn with
        | none => .error .assertFail
        | some pdn =>
          match pd_find_idom σ (G.uses irn) with
          | none => .error .assertFail
          | some idom0 =>
            match pd_intersect_uses σ fuel (G.uses irn) idom0 with
            | none => .error .outOfFuel
            | some idom =>
              if pdn.parent ≠ some idom then
                pd_compute_deps (pd_compute G root fuel) (G.deps irn)
                  (irn :: V) (pd_mark_defined (pd_set_parent σ idom irn) irn)
                  true
              else
                pd_compute_deps (pd_compute G root fuel) (G.deps irn)
                  (irn :: V) σ false

/-! ### Query index assignment (`pd_compute_indices_dom`) -/

/-- The `foreach_plist` loop of `pd_compute_indices_dom` over the child
list: `counter = pd_compute_indices_dom(child, counter + 1)` for each child
in order.  `recur` is the recursive call. -/
def pd_dom_children (recur : Nat → PdMap → Nat → Option (PdMap × Nat)) :
    List Nat → PdMap → Nat → Option (PdMap × Nat)
  | [], σ, c => some (σ, c)
  | ch :: cs, σ, c =>
    match recur ch σ (c + 1) with
    | none => none
    | some (σ', c') => pd_dom_children recur cs σ' c'

/-- `pd_compute_indices_dom`: preorder walk over the `children` lists of the
finished dominator tree; assigns `pdn->index := counter` on entry, recurses
into the children threading the counter, and sets `pdn->max_index` to the
final counter on exit; returns that counter.  Fueled: `none` models the
infinite recursion on a cyclic child structure (never reached on a tree). -/
def pd_compute_indices_dom :
    Nat → Nat → PdMap → Nat → Option (PdMap × Nat)
  | 0, _, _, _ => none
  | fuel + 1, v, σ, counter =>
    match σ v with
    | none => none
    | some pdn =>
      match pd_dom_children (pd_compute_indices_dom fuel) pdn.children
          (setPd σ v { pdn with index := counter }) counter with
      | none => none
      | some (σ2, c') =>
        match σ2 v with
        | some pdn2 => some (setPd σ2 v { pdn2 with max_index := c' }, c')
        | none => none

/-- The `do { … } while (changed)` fixpoint loop of `pd_init`: each
iteration starts a fresh visited generation (`inc_irg_visited`) and runs a
full `pd_compute` pass from the root. -/
def pd_fix (G : PEG) (root : Nat) (fuel : Nat) (σ : PdMap) :
    Except PdErr PdMap :=
  match fuel with
  | 0 => .error .outOfFuel
  | fuel + 1 =>
    match pd_compute G root fuel root [] σ with
    | .error e => .error e
    | .ok (_, σ', changed) => if changed then pd_fix G root fuel σ' else .ok σ'

/-- The phase state `pd_init` sets up before the index pass: the root
shadow is created (`phase_get_or_set`) and marked (`irn`/`defined`). -/
def pdInitStart (G : PEG) : PdMap :=
  setPd (phase_get_or_set emptyMap G.sink).2 G.sink
    { (phase_get_or_set emptyMap G.sink).1 with irn := G.sink, defined := true }

/-- `pd_init`: fetch the return node (modelled as `G.sink`), create and mark
the root shadow (`defined := 1`), assign post-order indices from the root,
iterate `pd_compute` passes to a fixpoint, then run
`pd_compute_indices_dom(tree->root, 0)` over the finished tree.  Returns the
final phase map together with the root id (`tree->root`). -/
def pd_init (G : PEG) (fuel : Nat) : Except PdErr (PdMap × Nat) :=
  let ret := G.sink
  match pd_compute_indices_post G fuel ret [] (pdInitStart G) 0 with
  | none => .error .outOfFuel
  | some (_, σ2, _) =>
    match pd_fix G ret fuel σ2 with
    | .error e => .error e
    | .ok σ3 =>
      match pd_compute_indices_dom fuel ret σ3 0 with
      | none => .error .outOfFuel
      | some (σ4, _) => .ok (σ4, ret)

/-! ### Query/accessor API -/

/-- `pd_dominates`: non-strict dominance by interval containment.  The C
code dereferences both shadows without an `assert`; a missing shadow is an
unchecked null dereference, not an assertion failure. -/
def pd_dominates (σ : PdMap) (lhs rhs : Nat) : Except PdErr Bool :=
  match σ lhs, σ rhs with
  | some l, some r =>
    .ok (decide (l.index ≤ r.index) && decide (r.index ≤ l.max_index))
  | _, _ => .error .nullDeref

/-- `pd_get_parent`: `assert(pdn)`; returns the parent's ir_node or NULL for
the root. -/
def pd_get_parent (σ : PdMap) (irn : Nat) : Except PdErr (Option Nat) :=
  match σ irn with
  | none => .error .assertFail
  | some pdn => .ok pdn.parent

/-- `pd_get_children_count`: `assert(pdn)`; `plist_count`. -/
def pd_get_children_count (σ : PdMap) (irn : Nat) : Except PdErr Nat :=
  match σ irn with
  | none => .error .assertFail
  | some pdn => .ok pdn.children.length

/-- A `pd_children_iter`: the suffix of the child list that remains to be
yielded (`plist_element_t *` cursor; `none`/`[]` is the NULL cursor). -/
abbrev PdChildrenIter := List Nat

/-- `pd_children_iter_init`: `assert(pdn)`; position the cursor at
`plist_first(pdn->children)`. -/
def pd_children_iter_init (σ : PdMap) (irn : Nat) :
    Except PdErr PdChildrenIter :=
  match σ irn with
  | none => .error .assertFail
  | some pdn => .ok pdn.children

/-- `pd_children_iter_next`: yield the current element's ir_node and advance,
or yield NULL at the end (and keep yielding NULL). -/
def pd_children_iter_next (it : PdChildrenIter) : Option Nat × PdChildrenIter :=
  match it with
  | [] => (none, [])
  | c :: rest => (some c, rest)

/-- `pd_get_root`. -/
def pd_get_root (res : PdMap × Nat) : Nat := res.2

/-! ### Concrete example graphs from the specification -/

/-- The diamond scenario: sink `R = 0` uses `A = 1` and `B = 2`; `A` and `B`
each use `C = 3`.  So `deps R = [A, B]`, `deps A = deps B = [C]`, and the
use (out-edge) lists are the reverse relation. -/
def diamondG : PEG :=
  { sink := 0
  , deps := fun n =>
      if n = 0 then [1, 2] else if n = 1 then [3] else if n = 2 then [3] else []
  , uses := fun n =>
      if n = 1 then [0] else if n = 2 then [0] else if n = 3 then [1, 2] else [] }

/-- The single-node scenario: the sink has no dependencies and no uses. -/
def singleG : PEG := { sink := 0, deps := fun _ => [], uses := fun _ => [] }

/-- The phase map produced by `pd_init` on the single-node graph, written
out pointwise so that it can appear in closed statements. -/
def singleMap : PdMap := fun n =>
  match pd_init singleG 20 with
  | .ok p => p.1 n
  | .error _ => none

/-- The phase map produced by `pd_init` on the diamond graph, written out
pointwise so that it can appear in closed statements. -/
def diamondMap : PdMap := fun n =>
  match pd_init diamondG 100 with
  | .ok p => p.1 n
  | .error _ => none

/-! ### Claim C3: a processed node with no defined use

The spec says such a node is left unresolved for the pass and retried
later.  The code instead hits `assert(pd_idom)` and aborts: after the first
`foreach_out_edge` loop finds no defined use, `pd_idom` is still NULL and
the assertion fires. -/

/-- A graph on which a solver pass reaches a node none of whose uses has a
defined shadow: sink `0` depends on `1` and `2`, but the out-edge list of
`1` names only `2`, whose shadow is still undefined when `1` is processed. -/
def c3G : PEG :=
  { sink := 0
  , deps := fun n => if n = 0 then [1, 2] else []
  , uses := fun n => if n = 1 then [2] else if n = 2 then [0] else [] }

/-- The phase state just before the first solver pass of `pd_init c3G`
processes node `1`: the root `0` is defined, the shadows of `1` and `2`
carry their post-order indices and are still undefined. -/
def c3State : PdMap := fun n =>
  if n = 0 then some ⟨0, true, 2, 0, [], none⟩
  else if n = 1 then some ⟨1, false, 0, 0, [], none⟩
  else if n = 2 then some ⟨2, false, 1, 0, [], none⟩
  else none

/-! ### Claim C2: interval nesting after the tree-indexing pass

`pd_compute_indices_dom` runs over the `children` lists of the finished
dominator tree.  To speak about "the dominator tree" and "descendants" we
make the pointer structure explicit as a rose tree `PdTree` together with a
predicate `UnfoldsT σ v t` stating that the `children` lists reachable from
`v` in the phase map `σ` spell out exactly `t`; duplicate-freeness of the
tree's node list expresses that the structure is a tree (each DomNode
occurs once), which is the shape the solver hands to the indexer. -/

/-- A rose tree of ir_node ids: the explicit shape of the `children`
pointer structure. -/
inductive PdTree where
  | node (irn : Nat) (children : List PdTree)
deriving Repr

def PdTree.rootIrn : PdTree → Nat
  | .node i _ => i

def PdTree.childrenOf : PdTree → List PdTree
  | .node _ cs => cs

mutual

/-- All node ids of a tree, root first. -/
def PdTree.nodes : PdTree → List Nat
  | .node i cs => i :: PdTree.nodesF cs

def PdTree.nodesF : List PdTree → List Nat
  | [] => []
  | t :: ts => PdTree.nodes t ++ PdTree.nodesF ts
end

/-- The `children` field of a shadow, viewed through the phase map. -/
def childrenIn (σ : PdMap) (v : Nat) : Option (List Nat) :=
  (σ v).map (·.children)

mutual

/-- `UnfoldsT σ v t`: starting at `v`, the `children` lists in `σ` unfold
exactly into the rose tree `t`. -/
def UnfoldsT (σ : PdMap) : Nat → PdTree → Prop
  | v, .node w ts => v = w ∧ ∃ cs, childrenIn σ v = some cs ∧ UnfoldsL σ cs ts

def UnfoldsL (σ : PdMap) : List Nat → List PdTree → Prop
  | [], [] => True
  | [], _ :: _ => False
  | _ :: _, [] => False
  | c :: cs, t :: ts => UnfoldsT σ c t ∧ UnfoldsL σ cs ts
end

/-- `Subtree t s`: `s` is a subtree occurrence of `t` (reflexively). -/
inductive Subtree : PdTree → PdTree → Prop where
  | refl (t) : Subtree t t
  | step {t s u} : s ∈ t.childrenOf → Subtree s u → Subtree t u

/-- `Desc t u`: `u` is a proper-descendant subtree occurrence of `t`
(reachable via at least one `children` edge). -/
def Desc (t u : PdTree) : Prop :=
  ∃ s ∈ t.childrenOf, Subtree s u

/-- Two phase maps with the same shadows up to the `index`/`max_index`
fields (which is all `pd_compute_indices_dom` writes). -/
def ShapeEq (σ σ' : PdMap) : Prop :=
  ∀ u, (σ u).map (fun p => (p.irn, p.defined, p.children, p.parent)) =
       (σ' u).map (fun p => (p.irn, p.defined, p.children, p.parent))

/-- Specification of one `pd_compute_indices_dom` call on a node whose
child structure unfolds into the duplicate-free tree `t`. -/
def NodeSpec (t : PdTree) : Prop :=
  ∀ (σ : PdMap) (v fuel c : Nat) (σ' : PdMap) (r : Nat),
    UnfoldsT σ v t → t.nodes.Nodup →
    pd_compute_indices_dom fuel v σ c = some (σ', r) →
    (∀ u, u ∉ t.nodes → σ' u = σ u) ∧
    ShapeEq σ σ' ∧
    c ≤ r ∧
    (∃ pv, σ' v = some pv ∧ pv.index = c ∧ pv.max_index = r) ∧
    (∀ s, Subtree t s → ∃ ps, σ' s.rootIrn = some ps ∧
      c ≤ ps.index ∧ ps.index ≤ ps.max_index ∧ ps.max_index ≤ r) ∧
    (∀ s u, Subtree t s → Desc s u → ∃ ps pu,
      σ' s.rootIrn = some ps ∧ σ' u.rootIrn = some pu ∧
      ps.index ≤ pu.index ∧ pu.index ≤ pu.max_index ∧
      pu.max_index ≤ ps.max_index)

/-- Specification of the `foreach_plist` child loop on a forest. -/
def ForestSpec (ts : List PdTree) : Prop :=
  ∀ (σ : PdMap) (cs : List Nat) (fuel c : Nat) (σ' : PdMap) (r : Nat),
    UnfoldsL σ cs ts → (PdTree.nodesF ts).Nodup →
    pd_dom_children (pd_compute_indices_dom fuel) cs σ c = some (σ', r) →
    (∀ u, u ∉ PdTree.nodesF ts → σ' u = σ u) ∧
    ShapeEq σ σ' ∧
    c ≤ r ∧
    (∀ t' ∈ ts, ∀ s, Subtree t' s → ∃ ps, σ' s.rootIrn = some ps ∧
      c + 1 ≤ ps.index ∧ ps.index ≤ ps.max_index ∧ ps.max_index ≤ r) ∧
    (∀ t' ∈ ts, ∀ s u, Subtree t' s → Desc s u → ∃ ps pu,
      σ' s.rootIrn = some ps ∧ σ' u.rootIrn = some pu ∧
      ps.index ≤ pu.index ∧ pu.index ≤ pu.max_index ∧
      pu.max_index ≤ ps.max_index)

/-- A concrete two-node dominator tree for the C2 witness: root `0` with
the single child `1`. -/
def c2Map : PdMap := fun n =>
  if n = 0 then some ⟨0, true, 0, 0, [1], none⟩
  else if n = 1 then some ⟨1, true, 0, 0, [], some 0⟩
  else none

def c2Tree : PdTree := .node 0 [.node 1 []]

/-- The result of the tree-indexing pass on `c2Map`. -/
def c2Out : PdMap × Nat :=
  match pd_compute_indices_dom 5 0 c2Map 0 with
  | some p => p
  | none => (c2Map, 0)

/-! ### Claim C6: the post-order indexing pass

We verify the depth-first `pd_compute_indices_post` walk: on an acyclic
dependence graph it visits each node reachable from the start exactly once
and hands out the indices `c, c+1, …` bijectively to the newly visited
nodes, assigning a node's index only after all of its dependencies' ones. -/

/-- Reachability along dependency edges (`deps`). -/
inductive Reach (G : PEG) : Nat → Nat → Prop where
  | refl (a) : Reach G a a
  | step {a b c} : Reach G a b → c ∈ G.deps b → Reach G a c

/-- The dependency relation has no cycle: no node is a dependency of a node
it reaches. -/
def AcyclicDeps (G : PEG) : Prop :=
  ∀ v w, w ∈ G.deps v → Reach G w v → False

/-- The `index` stored for `v` (0 for a missing shadow). -/
def idxOf (σ : PdMap) (v : Nat) : Nat :=
  match σ v with
  | some p => p.index
  | none => 0

/-- Invariant of the post-order walk.  `V` is the visited set, `Γ` the
DFS stack (marked but not yet numbered), `c` the next free index.  Every
finished ("black") node — visited and off the stack — has a shadow indexed
below `c`, and all its dependencies are finished with strictly smaller
indices. -/
def PostInv (G : PEG) (σ : PdMap) (V Γ : List Nat) (c : Nat) : Prop :=
  (∀ g ∈ Γ, g ∈ V) ∧
  (∀ v ∈ V, v ∉ Γ → ∃ pdn, σ v = some pdn ∧ pdn.index < c ∧
    (∀ d ∈ G.deps v, d ∈ V ∧ d ∉ Γ ∧
      ∃ pd, σ d = some pd ∧ pd.index < pdn.index))

/-- Specification of one `pd_compute_indices_post` call. -/
def PostNodeSpec (G : PEG) (fuel : Nat) : Prop :=
  ∀ (irn : Nat) (V : List Nat) (σ : PdMap) (c : Nat) (Γ V' : List Nat)
    (σ' : PdMap) (c' : Nat),
    AcyclicDeps G →
    pd_compute_indices_post G fuel irn V σ c = some (V', σ', c') →
    PostInv G σ V Γ c →
    (∀ g ∈ Γ, Reach G g irn) →
    ∃ N : List Nat,
      V' = N ++ V ∧ N.Nodup ∧ (∀ v ∈ N, v ∉ V) ∧ irn ∈ V' ∧
      (∀ v ∈ N, Reach G irn v) ∧
      (∀ u, u ∉ N → σ' u = σ u) ∧
      ((N.map (idxOf σ')).Perm (List.range' c (c' - c))) ∧
      c ≤ c' ∧
      PostInv G σ' V' Γ c' ∧
      (irn ∈ V ∨ ∃ pdn, σ' irn = some pdn ∧ pdn.index + 1 = c')

/-- Specification of the dependency `for` loop of the walk. -/
def PostListSpec (G : PEG) (fuel : Nat) : Prop :=
  ∀ (ds : List Nat) (V : List Nat) (σ : PdMap) (c : Nat) (Γ V' : List Nat)
    (σ' : PdMap) (c' : Nat),
    AcyclicDeps G →
    pd_post_deps (pd_compute_indices_post G fuel) ds V σ c = some (V', σ', c') →
    PostInv G σ V Γ c →
    (∀ g ∈ Γ, ∀ d ∈ ds, Reach G g d) →
    ∃ N : List Nat,
      V' = N ++ V ∧ N.Nodup ∧ (∀ v ∈ N, v ∉ V) ∧
      (∀ d ∈ ds, d ∈ V') ∧
      (∀ v ∈ N, ∃ d ∈ ds, Reach G d v) ∧
      (∀ u, u ∉ N → σ' u = σ u) ∧
      ((N.map (idxOf σ')).Perm (List.range' c (c' - c))) ∧
      c ≤ c' ∧
      PostInv G σ' V' Γ c'

/-- The start state of the Index Assigner inside `pd_init` on the diamond
graph: only the root shadow exists. -/
def c6Start : PdMap := setPd emptyMap 0 ⟨0, true, 0, 0, [], none⟩

/-- The walk's result on the diamond graph. -/
def c6Out : List Nat × PdMap × Nat :=
  match pd_compute_indices_post diamondG 100 0 [] c6Start 0 with
  | some p => p
  | none => ([], c6Start, 0)

/-! ### Claim C4: tree shape during construction

The claim asserts that at every point during construction every DomNode
except the root has exactly one parent.  That is false of the code: right
after the Index Assigner (and between the reparenting steps of the first
solver pass) there exist DomNode shadows that are not yet attached — their
`parent` is NULL and they occur in no child list.  What does hold at every
point is that the *attached* (`defined`) DomNodes form a tree rooted at the
sink's DomNode; this is the amended claim proved below. -/

/-- The tree invariant maintained by the solver over the *attached*
(`defined`) DomNodes, together with the static index facts it relies on.
`root` is the sink's id. -/
structure TreeInv (G : PEG) (root : Nat) (σ : PdMap) : Prop where
  rootRec : ∃ r, σ root = some r ∧ r.defined = true ∧ r.parent = none
  rootMax : ∀ v pdn r, σ v = some pdn → σ root = some r → v ≠ root →
    pdn.index < r.index
  parentDef : ∀ v pdn, σ v = some pdn → v ≠ root → pdn.defined = true →
    ∃ p pp, pdn.parent = some p ∧ σ p = some pp ∧ pp.defined = true ∧
      pdn.index < pp.index
  undefNoParent : ∀ v pdn, σ v = some pdn → pdn.defined = false →
    pdn.parent = none
  childParent : ∀ p pp, σ p = some pp → ∀ c ∈ pp.children,
    ∃ pc, σ c = some pc ∧ pc.parent = some p ∧ pc.defined = true
  parentChild : ∀ v pdn, σ v = some pdn → ∀ p, pdn.parent = some p →
    ∃ pp, σ p = some pp ∧ v ∈ pp.children
  childNodup : ∀ p pp, σ p = some pp → pp.children.Nodup
  useIdx : ∀ v pv u pu, σ v = some pv → σ u = some pu → u ∈ G.uses v →
    pv.index < pu.index

/-- The stored indices are pairwise distinct across shadows (which the
Index Assigner guarantees: they are a permutation of `0..n-1`). -/
def IdxInj (σ : PdMap) : Prop :=
  ∀ a b pa pb, σ a = some pa → σ b = some pb → pa.index = pb.index → a = b

/-- Specification: one solver visit preserves the tree invariant. -/
def ComputeInvSpec (G : PEG) (root fuel : Nat) : Prop :=
  ∀ (irn : Nat) (V : List Nat) (σ : PdMap) (V' : List Nat) (σ' : PdMap)
    (ch : Bool),
    TreeInv G root σ →
    pd_compute G root fuel irn V σ = .ok (V', σ', ch) →
    TreeInv G root σ'

/-- Specification: the dependency loop of a solver visit preserves the
tree invariant. -/
def ComputeDepsInvSpec (G : PEG) (root fuel : Nat) : Prop :=
  ∀ (ds : List Nat) (V : List Nat) (σ : PdMap) (ch0 : Bool) (V' : List Nat)
    (σ' : PdMap) (ch : Bool),
    TreeInv G root σ →
    pd_compute_deps (pd_compute G root fuel) ds V σ ch0 = .ok (V', σ', ch) →
    TreeInv G root σ'

/-- The reverse edges agree with the operand lists: whoever appears as a
use of `v` has `v` among its operands. -/
def UsesConsistent (G : PEG) : Prop :=
  ∀ v u, u ∈ G.uses v → v ∈ G.deps u

/-- The Index Assigner only rewrites `irn`/`index`: records that existed
keep their `defined`/`children`/`parent` fields, and records it creates are
zero-initialised in those fields. -/
def ShapePres (σ σ' : PdMap) : Prop :=
  ∀ u, (∀ pdn, σ u = some pdn → ∃ pdn', σ' u = some pdn' ∧
      pdn'.defined = pdn.defined ∧ pdn'.children = pdn.children ∧
      pdn'.parent = pdn.parent) ∧
    (σ u = none → σ' u = none ∨ ∃ pdn', σ' u = some pdn' ∧
      pdn'.defined = false ∧ pdn'.children = [] ∧ pdn'.parent = none)

/-- Shape preservation claim for one Index Assigner call. -/
def PostShapeNode (G : PEG) (fuel : Nat) : Prop :=
  ∀ (irn : Nat) (V : List Nat) (σ : PdMap) (c : Nat) (V' : List Nat)
    (σ' : PdMap) (c' : Nat),
    pd_compute_indices_post G fuel irn V σ c = some (V', σ', c') →
    ShapePres σ σ'

/-- Shape preservation claim for the dependency loop of the walk. -/
def PostShapeList (G : PEG) (fuel : Nat) : Prop :=
  ∀ (ds V : List Nat) (σ : PdMap) (c : Nat) (V' : List Nat) (σ' : PdMap)
    (c' : Nat),
    pd_post_deps (pd_compute_indices_post G fuel) ds V σ c = some (V', σ', c') →
    ShapePres σ σ'

/-- The phase state of `pd_init diamondG` right after the Index Assigner:
exactly what the first solver pass starts from. -/
def c4Mid : PdMap :=
  match pd_compute_indices_post diamondG 100 diamondG.sink []
      (pdInitStart diamondG) 0 with
  | some p => p.2.1
  | none => pdInitStart diamondG

/-- `v` reaches `root` by following `parent` pointers finitely often. -/
inductive ReachesRoot (σ : PdMap) (root : Nat) : Nat → Prop where
  | base : ReachesRoot σ root root
  | step {v p : Nat} {pv : PdNode} : σ v = some pv → pv.parent = some p →
      ReachesRoot σ root p → ReachesRoot σ root v

/-- The visited list produced alongside `c4Mid` by the index pass. -/
def c4PostV : List Nat :=
  match pd_compute_indices_post diamondG 100 diamondG.sink []
      (pdInitStart diamondG) 0 with
  | some p => p.1
  | none => []

/-- The counter produced alongside `c4Mid` by the index pass. -/
def c4PostC : Nat :=
  match pd_compute_indices_post diamondG 100 diamondG.sink []
      (pdInitStart diamondG) 0 with
  | some p => p.2.2
  | none => 0

/-! ### Claim C10: children iteration -/

/-- Repeatedly applying `pd_children_iter_next` and taking the `k`-th
yielded value. -/
def iterNth (it : PdChildrenIter) : Nat → Option Nat
  | 0 => (pd_children_iter_next it).1
  | k + 1 => iterNth (pd_children_iter_next it).2 k

/-! ### Basic lemmas about the phase map -/

theorem setPd_same (σ : PdMap) (k : Nat) (v : PdNode) : setPd σ k v k = some v := by
  simp [setPd]

theorem setPd_other (σ : PdMap) (k : Nat) (v : PdNode) (n : Nat) (h : n ≠ k) :
    setPd σ k v n = σ n := by
  simp [setPd, h]

/-! ### Claim C7: the diamond scenario -/

/-- C7: on the graph with sink `R = 0`, `R` using `A = 1` and `B = 2`, and
`A`, `B` each using `C = 3`, construction makes `A`, `B`, `C` all direct
children of `R` (in particular `C`'s immediate dominator is `R`, not `A` or
`B`), and afterwards `dominates(R, C)` is true while `dominates(A, C)` and
`dominates(C, A)` are false. -/
theorem C7_diamond :
    ((pd_init diamondG 100).map fun p => pd_get_parent p.1 1) = .ok (.ok (some 0)) ∧
    ((pd_init diamondG 100).map fun p => pd_get_parent p.1 2) = .ok (.ok (some 0)) ∧
    ((pd_init diamondG 100).map fun p => pd_get_parent p.1 3) = .ok (.ok (some 0)) ∧
    ((pd_init diamondG 100).map fun p => pd_get_children_count p.1 0) = .ok (.ok 3) ∧
    ((pd_init diamondG 100).map fun p => pd_dominates p.1 0 3) = .ok (.ok true) ∧
    ((pd_init diamondG 100).map fun p => pd_dominates p.1 1 3) = .ok (.ok false) ∧
    ((pd_init diamondG 100).map fun p => pd_dominates p.1 3 1) = .ok (.ok false) := by
  refine ⟨?_, ?_, ?_, ?_, ?_, ?_, ?_⟩ <;> decide

/-! ### Claim C8: the single-node scenario -/

/-- C8: on a graph whose sink has no uses and no dependencies, construction
succeeds, the resulting tree consists solely of the root (the root has no
parent and `childrenCount(root) = 0`), and `dominates(root, root)` holds. -/
theorem C8_single_node :
    pd_init singleG 20 = .ok (singleMap, 0) ∧
    pd_get_root (singleMap, 0) = singleG.sink ∧
    pd_get_parent singleMap 0 = .ok none ∧
    pd_get_children_count singleMap 0 = .ok 0 ∧
    pd_dominates singleMap 0 0 = .ok true := by
  refine ⟨rfl, ?_, ?_, ?_, ?_⟩ <;> decide

/-! ### Claim C1: the dominance test is interval containment -/

/-- C1: after `pd_init` has completed, for any two nodes with DomNode
shadows, `pd_dominates` answers true exactly when
`index(A) ≤ index(B) ≤ max_index(A)` for the stored interval bounds (the
ones assigned by the tree-indexing pass, which is the last phase of
`pd_init` to write them). -/
theorem C1_dominates_iff_interval (G : PEG) (fuel : Nat) (σ : PdMap)
    (root : Nat) (_hinit : pd_init G fuel = .ok (σ, root))
    (a b : Nat) (na nb : PdNode) (ha : σ a = some na) (hb : σ b = some nb) :
    pd_dominates σ a b = .ok true ↔
      (na.index ≤ nb.index ∧ nb.index ≤ na.max_index) := by
  simp [pd_dominates, ha, hb]

theorem C1_witness :
    pd_init singleG 20 = .ok (singleMap, 0) ∧
    singleMap 0 = some ⟨0, true, 0, 0, [], none⟩ ∧
    (pd_dominates singleMap 0 0 = .ok true ↔
      ((PdNode.mk 0 true 0 0 [] none).index ≤ (PdNode.mk 0 true 0 0 [] none).index ∧
       (PdNode.mk 0 true 0 0 [] none).index ≤ (PdNode.mk 0 true 0 0 [] none).max_index)) :=
  ⟨rfl, rfl,
    C1_dominates_iff_interval singleG 20 singleMap 0 rfl 0 0 _ _ rfl rfl⟩

/-! ### Claim C9: behaviour of queries on nodes without a shadow

The claim says all four query operations fail via an assertion.  That is
true of `pd_get_parent`, `pd_get_children_count` and
`pd_children_iter_init`, which all carry `assert(pdn && …)`, but false of
`pd_dominates`, which has no assertion and dereferences the null shadow
pointer directly. -/

/-- C9 counterexample: `pd_dominates` on a node with no DomNode shadow does
not fail through the assertion path; it performs an unchecked null
dereference. -/
theorem C9_counterexample :
    singleMap 5 = none ∧
    pd_dominates singleMap 5 0 = .error .nullDeref ∧
    pd_dominates singleMap 5 0 ≠ .error .assertFail := by
  refine ⟨rfl, ?_, ?_⟩ <;> decide

/-- C9 (amended): querying a node with no DomNode shadow is fatal at the
query site: `pd_get_parent`, `pd_get_children_count` and
`pd_children_iter_init` fail their `assert`, while `pd_dominates`
dereferences the missing shadow without any assertion (an unchecked null
dereference in either argument position). -/
theorem C9_queries_on_missing_shadow (σ : PdMap) (irn : Nat)
    (h : σ irn = none) :
    pd_get_parent σ irn = .error .assertFail ∧
    pd_get_children_count σ irn = .error .assertFail ∧
    pd_children_iter_init σ irn = .error .assertFail ∧
    (∀ rhs, pd_dominates σ irn rhs = .error .nullDeref) ∧
    (∀ lhs, pd_dominates σ lhs irn = .error .nullDeref) := by
  refine ⟨?_, ?_, ?_, ?_, ?_⟩
  · simp [pd_get_parent, h]
  · simp [pd_get_children_count, h]
  · simp [pd_children_iter_init, h]
  · intro rhs; simp [pd_dominates, h]
  · intro lhs
    cases hl : σ lhs <;> simp [pd_dominates, h, hl]

theorem C9_witness :
    singleMap 5 = none ∧
    pd_get_parent singleMap 5 = .error .assertFail ∧
    pd_dominates singleMap 5 0 = .error .nullDeref :=
  ⟨rfl, (C9_queries_on_missing_shadow singleMap 5 rfl).1,
    (C9_queries_on_missing_shadow singleMap 5 rfl).2.2.2.1 0⟩

/-- C3 counterexample: at the concrete state where node `1` is processed
and its only use (`2`) has an undefined shadow, the solver pass returns an
assertion failure — it does not leave `1` unresolved and continue — and the
whole construction on this graph aborts the same way. -/
theorem C3_counterexample :
    pd_find_idom c3State (c3G.uses 1) = none ∧
    pd_compute c3G c3G.sink 10 1 [0] c3State = .error .assertFail ∧
    pd_init c3G 20 = .error .assertFail :=
  ⟨by decide, rfl, rfl⟩

/-- Helper for C3: if no use has a defined shadow, the first
`foreach_out_edge` loop finds no candidate. -/
theorem pd_find_idom_eq_none (σ : PdMap) (us : List Nat)
    (h : ∀ u ∈ us, ∀ pdu, σ u = some pdu → pdu.defined = false) :
    pd_find_idom σ us = none := by
  induction us with
  | nil => rfl
  | cons u us ih =>
    have hu := h u (List.mem_cons_self u us)
    have hrest : ∀ v ∈ us, ∀ pdu, σ v = some pdu → pdu.defined = false :=
      fun v hv => h v (List.mem_cons_of_mem u hv)
    unfold pd_find_idom
    cases hσ : σ u with
    | none => exact ih hrest
    | some pdu =>
      have : pdu.defined = false := hu pdu hσ
      simp [this, ih hrest]

/-- C3 (amended): when a solver pass processes an unvisited non-sink node
`n` none of whose uses has a defined DomNode, the pass aborts with an
assertion failure (`assert(pd_idom)`); the node is not left unresolved to
be retried in a later pass. -/
theorem C3_no_defined_use_asserts (G : PEG) (root fuel irn : Nat)
    (V : List Nat) (σ : PdMap) (hnv : irn ∉ V) (hnr : irn ≠ root)
    (huse : ∀ u ∈ G.uses irn, ∀ pdu, σ u = some pdu → pdu.defined = false) :
    pd_compute G root (fuel + 1) irn V σ = .error .assertFail := by
  unfold pd_compute
  simp only [hnv, if_false, hnr, ite_false]
  cases hσ : σ irn with
  | none => simp [hnv, hnr, hσ]
  | some pdn => simp [hnv, hnr, hσ, pd_find_idom_eq_none σ (G.uses irn) huse]

theorem C3_witness :
    ((1 : Nat) ∉ ([0] : List Nat)) ∧ (1 : Nat) ≠ 0 ∧
    pd_compute c3G 0 10 1 [0] c3State = .error .assertFail := by
  refine ⟨by decide, by decide, ?_⟩
  refine C3_no_defined_use_asserts c3G 0 9 1 [0] c3State (by decide) (by decide) ?_
  intro u hu pdu hpdu
  have hu2 : u = 2 := by simpa [c3G] using hu
  subst hu2
  have h2 : some pdu = some (⟨2, false, 1, 0, [], none⟩ : PdNode) := by
    rw [← hpdu]; rfl
  have h3 := Option.some.inj h2
  subst h3
  rfl

theorem shapeEq_refl (σ : PdMap) : ShapeEq σ σ := fun _ => rfl

theorem shapeEq_trans {a b c : PdMap} (h1 : ShapeEq a b) (h2 : ShapeEq b c) :
    ShapeEq a c := fun u => (h1 u).trans (h2 u)

theorem shapeEq_childrenIn {σ σ' : PdMap} (h : ShapeEq σ σ') (u : Nat) :
    childrenIn σ u = childrenIn σ' u := by
  have := h u
  unfold childrenIn
  cases hσ : σ u with
  | none => cases hσ' : σ' u with
    | none => rfl
    | some p' => rw [hσ, hσ'] at this; simp at this
  | some p => cases hσ' : σ' u with
    | none => rw [hσ, hσ'] at this; simp at this
    | some p' =>
      rw [hσ, hσ'] at this
      simp only [Option.map_some'] at this ⊢
      have : p.children = p'.children := by
        have h2 := congrArg (fun q => q.2.2.1) (Option.some.inj this)
        exact h2
      rw [this]

theorem shapeEq_isSome {σ σ' : PdMap} (h : ShapeEq σ σ') {u : Nat} {p : PdNode}
    (hp : σ u = some p) :
    ∃ p', σ' u = some p' ∧ p'.irn = p.irn ∧ p'.defined = p.defined ∧
      p'.children = p.children ∧ p'.parent = p.parent := by
  have := h u
  rw [hp] at this
  cases hσ' : σ' u with
  | none => rw [hσ'] at this; simp at this
  | some p' =>
    rw [hσ'] at this
    simp only [Option.map_some'] at this
    have h4 := Option.some.inj this
    refine ⟨p', rfl, ?_, ?_, ?_, ?_⟩
    · exact (congrArg (fun q => q.1) h4).symm
    · exact (congrArg (fun q => q.2.1) h4).symm
    · exact (congrArg (fun q => q.2.2.1) h4).symm
    · exact (congrArg (fun q => q.2.2.2) h4).symm

theorem subtree_trans {a b c : PdTree} (h1 : Subtree a b) (h2 : Subtree b c) :
    Subtree a c := by
  induction h1 with
  | refl => exact h2
  | step hmem _ ih => exact Subtree.step hmem (ih h2)

theorem subtree_of_desc {s u : PdTree} (h : Desc s u) : Subtree s u := by
  obtain ⟨s0, hmem, hsub⟩ := h
  exact Subtree.step hmem hsub

theorem mem_nodesF_of_mem {t' : PdTree} {x : Nat} :
    ∀ {ts : List PdTree}, t' ∈ ts → x ∈ t'.nodes → x ∈ PdTree.nodesF ts := by
  intro ts
  induction ts with
  | nil => intro h; exact absurd h (List.not_mem_nil t')
  | cons t1 ts' ih =>
    intro hmem hx
    rw [PdTree.nodesF]
    rcases List.mem_cons.mp hmem with h | h
    · subst h; exact List.mem_append_left _ hx
    · exact List.mem_append_right _ (ih h hx)

theorem rootIrn_mem_nodes (t : PdTree) : t.rootIrn ∈ t.nodes := by
  cases t with
  | node i cs => exact List.mem_cons_self _ _

theorem mem_nodes_of_mem_childrenF {t : PdTree} {x : Nat}
    (h : x ∈ PdTree.nodesF t.childrenOf) : x ∈ t.nodes := by
  cases t with
  | node i cs => exact List.mem_cons_of_mem _ h

theorem subtree_rootIrn_mem {t s : PdTree} (h : Subtree t s) :
    s.rootIrn ∈ t.nodes := by
  induction h with
  | refl t => exact rootIrn_mem_nodes t
  | step hmem _ ih => exact mem_nodes_of_mem_childrenF (mem_nodesF_of_mem hmem ih)

theorem unfoldsT_rootIrn {σ : PdMap} {v : Nat} {t : PdTree}
    (h : UnfoldsT σ v t) : t.rootIrn = v := by
  cases t with
  | node w ts =>
    rw [UnfoldsT] at h
    rw [PdTree.rootIrn]
    exact h.1.symm

/-- `UnfoldsT`/`UnfoldsL` only look at the `children` fields, so they are
stable under shape-preserving state changes. -/
theorem unfoldsT_shapeEq_aux :
    ∀ (N : Nat) (t : PdTree), sizeOf t ≤ N →
      ∀ (σ σ' : PdMap) (v : Nat), ShapeEq σ σ' → UnfoldsT σ v t → UnfoldsT σ' v t := by
  intro N
  induction N with
  | zero =>
    intro t hle
    exfalso
    cases t with
    | node i cs => simp [PdTree.node.sizeOf_spec] at hle
  | succ N ih =>
    intro t hle σ σ' v hsh hu
    cases t with
    | node w ts =>
      rw [UnfoldsT] at hu ⊢
      obtain ⟨hvw, cs, hci, hl⟩ := hu
      refine ⟨hvw, cs, (shapeEq_childrenIn hsh v) ▸ hci, ?_⟩
      have hsize : ∀ t' ∈ ts, sizeOf t' ≤ N := by
        intro t' ht'
        have h1 := List.sizeOf_lt_of_mem ht'
        have h2 : sizeOf ts < sizeOf (PdTree.node w ts) := by
          simp [PdTree.node.sizeOf_spec]
        omega
      clear hci hle
      revert hl
      revert hsize
      induction ts generalizing cs with
      | nil =>
        intro hsize hl
        cases cs with
        | nil => rw [UnfoldsL] at hl ⊢; trivial
        | cons c1 cs' => rw [UnfoldsL] at hl; exact absurd hl not_false
      | cons t1 ts' ihts =>
        intro hsize hl
        cases cs with
        | nil => rw [UnfoldsL] at hl; exact absurd hl not_false
        | cons c1 cs' =>
          rw [UnfoldsL] at hl ⊢
          refine ⟨ih t1 (hsize t1 (List.mem_cons_self _ _)) σ σ' c1 hsh hl.1, ?_⟩
          exact ihts cs' (fun t' ht' => hsize t' (List.mem_cons_of_mem _ ht')) hl.2

theorem unfoldsT_shapeEq {σ σ' : PdMap} (hsh : ShapeEq σ σ') {v : Nat}
    {t : PdTree} (h : UnfoldsT σ v t) : UnfoldsT σ' v t :=
  unfoldsT_shapeEq_aux (sizeOf t) t le_rfl σ σ' v hsh h

theorem unfoldsL_shapeEq {σ σ' : PdMap} (hsh : ShapeEq σ σ') :
    ∀ {cs : List Nat} {ts : List PdTree}, UnfoldsL σ cs ts → UnfoldsL σ' cs ts := by
  intro cs ts
  induction ts generalizing cs with
  | nil =>
    cases cs with
    | nil => intro h; rw [UnfoldsL] at h ⊢; trivial
    | cons c1 cs' => intro h; rw [UnfoldsL] at h; exact absurd h not_false
  | cons t1 ts' ih =>
    cases cs with
    | nil => intro h; rw [UnfoldsL] at h; exact absurd h not_false
    | cons c1 cs' =>
      intro h
      rw [UnfoldsL] at h ⊢
      exact ⟨unfoldsT_shapeEq hsh h.1, ih h.2⟩

/-- Overwriting a shadow with a record that differs only in
`index`/`max_index` preserves the shape. -/
theorem shapeEq_setPd {σ : PdMap} {v : Nat} {pdn pdn' : PdNode}
    (h : σ v = some pdn) (hirn : pdn'.irn = pdn.irn)
    (hdef : pdn'.defined = pdn.defined) (hch : pdn'.children = pdn.children)
    (hpar : pdn'.parent = pdn.parent) :
    ShapeEq σ (setPd σ v pdn') := by
  intro u
  by_cases hu : u = v
  · subst hu; rw [h, setPd_same]; simp [hirn, hdef, hch, hpar]
  · rw [setPd_other _ _ _ _ hu]

theorem pd_dom_children_nil (recur : Nat → PdMap → Nat → Option (PdMap × Nat))
    (σ : PdMap) (c : Nat) : pd_dom_children recur [] σ c = some (σ, c) := rfl

theorem pd_dom_children_cons (recur : Nat → PdMap → Nat → Option (PdMap × Nat))
    (ch : Nat) (cs : List Nat) (σ : PdMap) (c : Nat) :
    pd_dom_children recur (ch :: cs) σ c =
      match recur ch σ (c + 1) with
      | none => none
      | some (σ', c') => pd_dom_children recur cs σ' c' := rfl

theorem forestSpec_of_nodeSpec :
    ∀ (ts : List PdTree), (∀ t' ∈ ts, NodeSpec t') → ForestSpec ts := by
  intro ts
  induction ts with
  | nil =>
    intro _ σ cs fuel c σ' r hl hnd hrun
    cases cs with
    | cons c1 cs' => rw [UnfoldsL] at hl; exact absurd hl not_false
    | nil =>
      have hrun' : some (σ, c) = some (σ', r) := hrun
      rw [Option.some.injEq, Prod.mk.injEq] at hrun'
      obtain ⟨hσ, hr⟩ := hrun'
      subst hσ; subst hr
      refine ⟨fun u _ => rfl, shapeEq_refl σ, le_refl c, ?_, ?_⟩
      · intro t' ht'; exact absurd ht' (List.not_mem_nil t')
      · intro t' ht'; exact absurd ht' (List.not_mem_nil t')
  | cons t1 ts' ih =>
    intro hns σ cs fuel c σ'' r hl hnd hrun
    cases cs with
    | nil => rw [UnfoldsL] at hl; exact absurd hl not_false
    | cons c1 cs' =>
      rw [UnfoldsL] at hl
      obtain ⟨ht1, hrest⟩ := hl
      have hnd' : (t1.nodes ++ PdTree.nodesF ts').Nodup := hnd
      rw [List.nodup_append] at hnd'
      obtain ⟨hnd1, hnd2, hdisj⟩ := hnd'
      rw [pd_dom_children_cons] at hrun
      cases hrun1 : pd_compute_indices_dom fuel c1 σ (c + 1) with
      | none =>
        rw [hrun1] at hrun
        exact Option.noConfusion hrun
      | some p1 =>
        obtain ⟨σ1, r1⟩ := p1
        rw [hrun1] at hrun
        have hrun2 : pd_dom_children (pd_compute_indices_dom fuel) cs' σ1 r1 =
            some (σ'', r) := hrun
        obtain ⟨hfr1, hsh1, hle1, hD1, hE1, hF1⟩ :=
          hns t1 (List.mem_cons_self _ _) σ c1 fuel (c + 1) σ1 r1 ht1 hnd1 hrun1
        have hrest1 : UnfoldsL σ1 cs' ts' := unfoldsL_shapeEq hsh1 hrest
        obtain ⟨hfr2, hsh2, hle2, hE2, hF2⟩ :=
          ih (fun t' h => hns t' (List.mem_cons_of_mem _ h)) σ1 cs' fuel r1 σ'' r
            hrest1 hnd2 hrun2
        refine ⟨?_, shapeEq_trans hsh1 hsh2, by omega, ?_, ?_⟩
        · intro u hu
          have hu' : ¬(u ∈ t1.nodes ++ PdTree.nodesF ts') := hu
          rw [List.mem_append] at hu'
          push_neg at hu'
          rw [hfr2 u hu'.2, hfr1 u hu'.1]
        · intro t' hmem s hs
          rcases List.mem_cons.mp hmem with h | h
          · subst h
            obtain ⟨ps, hps, hb1, hb2, hb3⟩ := hE1 s hs
            have hx : s.rootIrn ∈ t'.nodes := subtree_rootIrn_mem hs
            refine ⟨ps, ?_, hb1, hb2, by omega⟩
            rw [hfr2 _ (fun hc => hdisj hx hc)]
            exact hps
          · obtain ⟨ps, hps, hb1, hb2, hb3⟩ := hE2 t' h s hs
            exact ⟨ps, hps, by omega, hb2, hb3⟩
        · intro t' hmem s u hs hd
          rcases List.mem_cons.mp hmem with h | h
          · subst h
            obtain ⟨ps, pu, hps, hpu, hn1, hn2, hn3⟩ := hF1 s u hs hd
            have hxs : s.rootIrn ∈ t'.nodes := subtree_rootIrn_mem hs
            have hxu : u.rootIrn ∈ t'.nodes :=
              subtree_rootIrn_mem (subtree_trans hs (subtree_of_desc hd))
            refine ⟨ps, pu, ?_, ?_, hn1, hn2, hn3⟩
            · rw [hfr2 _ (fun hc => hdisj hxs hc)]; exact hps
            · rw [hfr2 _ (fun hc => hdisj hxu hc)]; exact hpu
          · exact hF2 t' h s u hs hd

theorem nodeSpec_all : ∀ (N : Nat) (t : PdTree), sizeOf t ≤ N → NodeSpec t := by
  intro N
  induction N with
  | zero =>
    intro t hle
    exfalso
    cases t with
    | node i cs => simp [PdTree.node.sizeOf_spec] at hle
  | succ N ih =>
    intro t hle
    cases t with
    | node w ts =>
      have hfs : ForestSpec ts := by
        apply forestSpec_of_nodeSpec
        intro t' ht'
        apply ih
        have h1 := List.sizeOf_lt_of_mem ht'
        have h2 : sizeOf ts < sizeOf (PdTree.node w ts) := by
          simp [PdTree.node.sizeOf_spec]
        omega
      intro σ v fuel c σ' r hu hnd hrun
      rw [UnfoldsT] at hu
      obtain ⟨hvw, cs, hci, hl⟩ := hu
      subst hvw
      have hnd' : (v :: PdTree.nodesF ts).Nodup := hnd
      rw [List.nodup_cons] at hnd'
      obtain ⟨hvnot, hndF⟩ := hnd'
      cases fuel with
      | zero => exact Option.noConfusion hrun
      | succ fuel =>
        unfold pd_compute_indices_dom at hrun
        split at hrun
        · exact Option.noConfusion hrun
        · next pdn heq =>
            have hcs : pdn.children = cs := by
              unfold childrenIn at hci
              rw [heq] at hci
              simpa using hci
            split at hrun
            · exact Option.noConfusion hrun
            · next σ2 c' heq2 =>
                split at hrun
                · next pdn2 heq3 =>
                    rw [Option.some.injEq, Prod.mk.injEq] at hrun
                    obtain ⟨hσ', hr⟩ := hrun
                    subst hσ'
                    subst hr
                    have hshape1 : ShapeEq σ (setPd σ v { pdn with index := c }) :=
                      shapeEq_setPd heq rfl rfl rfl rfl
                    have hl0 : UnfoldsL σ pdn.children ts := by
                      rw [hcs]; exact hl
                    have hl1 : UnfoldsL (setPd σ v { pdn with index := c })
                        pdn.children ts := unfoldsL_shapeEq hshape1 hl0
                    obtain ⟨hfr2, hsh2, hle2, hE2, hF2⟩ :=
                      hfs (setPd σ v { pdn with index := c }) pdn.children fuel c
                        σ2 c' hl1 hndF heq2
                    have hσ2v : σ2 v = some { pdn with index := c } := by
                      rw [hfr2 v hvnot, setPd_same]
                    have hpdn2 : pdn2 = { pdn with index := c } :=
                      Option.some.inj ((heq3.symm).trans hσ2v)
                    have hidx : pdn2.index = c := by rw [hpdn2]
                    refine ⟨?_, ?_, hle2, ?_, ?_, ?_⟩
                    · intro u hu
                      have hu' : ¬(u ∈ v :: PdTree.nodesF ts) := hu
                      rw [List.mem_cons] at hu'
                      push_neg at hu'
                      rw [setPd_other _ _ _ _ hu'.1, hfr2 u hu'.2,
                        setPd_other _ _ _ _ hu'.1]
                    · refine shapeEq_trans (shapeEq_trans hshape1 hsh2) ?_
                      exact shapeEq_setPd heq3 rfl rfl rfl rfl
                    · refine ⟨{ pdn2 with max_index := c' }, setPd_same _ _ _, ?_, rfl⟩
                      exact hidx
                    · intro s hs
                      cases hs with
                      | refl =>
                        refine ⟨{ pdn2 with max_index := c' }, setPd_same _ _ _, ?_, ?_, le_refl c'⟩
                        · show c ≤ pdn2.index
                          omega
                        · show pdn2.index ≤ c'
                          omega
                      | step hmem hsub =>
                        obtain ⟨ps, hps, hb1, hb2, hb3⟩ := hE2 _ hmem s hsub
                        have hx : s.rootIrn ∈ PdTree.nodesF ts :=
                          mem_nodesF_of_mem hmem (subtree_rootIrn_mem hsub)
                        have hxv : s.rootIrn ≠ v := fun h => hvnot (h ▸ hx)
                        refine ⟨ps, ?_, by omega, hb2, by omega⟩
                        rw [setPd_other _ _ _ _ hxv]
                        exact hps
                    · intro s u hs hd
                      cases hs with
                      | refl =>
                        obtain ⟨s0, hmem0, hsub0⟩ := hd
                        obtain ⟨pu, hpu, hb1, hb2, hb3⟩ := hE2 s0 hmem0 u hsub0
                        have hx : u.rootIrn ∈ PdTree.nodesF ts :=
                          mem_nodesF_of_mem hmem0 (subtree_rootIrn_mem hsub0)
                        have hxv : u.rootIrn ≠ v := fun h => hvnot (h ▸ hx)
                        refine ⟨{ pdn2 with max_index := c' }, pu, setPd_same _ _ _, ?_, ?_, hb2, ?_⟩
                        · rw [setPd_other _ _ _ _ hxv]; exact hpu
                        · show pdn2.index ≤ pu.index
                          omega
                        · show pu.max_index ≤ c'
                          omega
                      | step hmem hsub =>
                        obtain ⟨ps, pu, hps, hpu, hn1, hn2, hn3⟩ :=
                          hF2 _ hmem s u hsub hd
                        have hxs : s.rootIrn ∈ PdTree.nodesF ts :=
                          mem_nodesF_of_mem hmem (subtree_rootIrn_mem hsub)
                        have hxu : u.rootIrn ∈ PdTree.nodesF ts :=
                          mem_nodesF_of_mem hmem
                            (subtree_rootIrn_mem (subtree_trans hsub (subtree_of_desc hd)))
                        have hxvs : s.rootIrn ≠ v := fun h => hvnot (h ▸ hxs)
                        have hxvu : u.rootIrn ≠ v := fun h => hvnot (h ▸ hxu)
                        refine ⟨ps, pu, ?_, ?_, hn1, hn2, hn3⟩
                        · rw [setPd_other _ _ _ _ hxvs]
                          exact hps
                        · rw [setPd_other _ _ _ _ hxvu]
                          exact hpu
                · exact Option.noConfusion hrun

/-- C2: after the tree-indexing pass (`pd_compute_indices_dom` run on a
node `v` whose `children` structure forms a tree `t`, i.e. unfolds without
duplicates), every node `s` of the dominator tree satisfies
`index(s) ≤ max_index(s)`, and for every descendant `u` of `s` (reachable
from `s` via `children` edges) the subtree intervals nest:
`index(s) ≤ index(u) ≤ max_index(u) ≤ max_index(s)`. -/
theorem C2_interval_nesting (σ : PdMap) (v : Nat) (t : PdTree) (fuel c : Nat)
    (σ' : PdMap) (r : Nat) (hu : UnfoldsT σ v t) (hnd : t.nodes.Nodup)
    (hrun : pd_compute_indices_dom fuel v σ c = some (σ', r)) :
    (∀ s ps, Subtree t s → σ' s.rootIrn = some ps →
      ps.index ≤ ps.max_index) ∧
    (∀ s u ps pu, Subtree t s → Desc s u →
      σ' s.rootIrn = some ps → σ' u.rootIrn = some pu →
      ps.index ≤ pu.index ∧ pu.index ≤ pu.max_index ∧
      pu.max_index ≤ ps.max_index) := by
  obtain ⟨-, -, -, -, hE, hF⟩ :=
    nodeSpec_all (sizeOf t) t le_rfl σ v fuel c σ' r hu hnd hrun
  constructor
  · intro s ps hs hps
    obtain ⟨ps', hps', _, hb, _⟩ := hE s hs
    rw [hps] at hps'
    cases Option.some.inj hps'
    exact hb
  · intro s u ps pu hs hd hps hpu
    obtain ⟨ps', pu', hps', hpu', h1, h2, h3⟩ := hF s u hs hd
    rw [hps] at hps'
    rw [hpu] at hpu'
    cases Option.some.inj hps'
    cases Option.some.inj hpu'
    exact ⟨h1, h2, h3⟩

theorem C2_witness :
    UnfoldsT c2Map 0 c2Tree ∧ (PdTree.nodes c2Tree).Nodup ∧
    pd_compute_indices_dom 5 0 c2Map 0 = some (c2Out.1, c2Out.2) ∧
    c2Out.1 0 = some ⟨0, true, 0, 1, [1], none⟩ ∧
    c2Out.1 1 = some ⟨1, true, 1, 1, [], some 0⟩ ∧
    ((0 : Nat) ≤ 1 ∧ (1 : Nat) ≤ 1 ∧ (1 : Nat) ≤ 1) := by
  have hu : UnfoldsT c2Map 0 c2Tree := by
    show UnfoldsT c2Map 0 (.node 0 [.node 1 []])
    rw [UnfoldsT]
    refine ⟨rfl, [1], rfl, ?_⟩
    rw [UnfoldsL]
    constructor
    · rw [UnfoldsT]
      refine ⟨rfl, [], rfl, ?_⟩
      rw [UnfoldsL]
      trivial
    · rw [UnfoldsL]
      trivial
  have hnd : (PdTree.nodes c2Tree).Nodup := by decide
  refine ⟨hu, hnd, rfl, rfl, rfl, ?_⟩
  exact (C2_interval_nesting c2Map 0 c2Tree 5 0 c2Out.1 c2Out.2 hu hnd rfl).2
    c2Tree (.node 1 []) ⟨0, true, 0, 1, [1], none⟩ ⟨1, true, 1, 1, [], some 0⟩
    (Subtree.refl _) ⟨.node 1 [], List.mem_cons_self _ _, Subtree.refl _⟩
    rfl rfl

theorem reach_trans {G : PEG} {a b c : Nat} (h1 : Reach G a b)
    (h2 : Reach G b c) : Reach G a c := by
  induction h2 with
  | refl => exact h1
  | step _ hd ih => exact Reach.step ih hd

/-- A ranking that strictly drops along dependency edges certifies
acyclicity. -/
theorem acyclicDeps_of_rank (G : PEG) (rank : Nat → Nat)
    (hr : ∀ v, ∀ d ∈ G.deps v, rank d < rank v) : AcyclicDeps G := by
  have hreach : ∀ a b, Reach G a b → rank b ≤ rank a := by
    intro a b h
    induction h with
    | refl => exact le_refl _
    | step _ hd ih => exact le_trans (le_of_lt (hr _ _ hd)) ih
  intro v w hw hr2
  have h1 := hreach w v hr2
  have h2 := hr v w hw
  omega

theorem postInv_push {G : PEG} {σ : PdMap} {V Γ : List Nat} {c irn : Nat}
    (h : PostInv G σ V Γ c) (hnv : irn ∉ V) :
    PostInv G σ (irn :: V) (irn :: Γ) c := by
  obtain ⟨hΓ, hB⟩ := h
  constructor
  · intro g hg
    rcases List.mem_cons.mp hg with h | h
    · subst h; exact List.mem_cons_self _ _
    · exact List.mem_cons_of_mem _ (hΓ g h)
  · intro v hv hvΓ
    have hvne : v ≠ irn := fun h => hvΓ (h ▸ List.mem_cons_self irn Γ)
    have hvV : v ∈ V := by
      rcases List.mem_cons.mp hv with h | h
      · exact absurd h hvne
      · exact h
    have hvΓ0 : v ∉ Γ := fun h => hvΓ (List.mem_cons_of_mem _ h)
    obtain ⟨pdn, hσ, hidx, hdeps⟩ := hB v hvV hvΓ0
    refine ⟨pdn, hσ, hidx, ?_⟩
    intro d hd
    obtain ⟨hdV, hdΓ, pd, hpd, hpidx⟩ := hdeps d hd
    have hdne : d ≠ irn := fun h => hnv (h ▸ hdV)
    refine ⟨List.mem_cons_of_mem _ hdV, ?_, pd, hpd, hpidx⟩
    intro hc
    rcases List.mem_cons.mp hc with h | h
    · exact hdne h
    · exact hdΓ h

theorem postList_of_postNode (G : PEG) (fuel : Nat) (hn : PostNodeSpec G fuel) :
    PostListSpec G fuel := by
  intro ds
  induction ds with
  | nil =>
    intro V σ c Γ V' σ' c' hacyc hrun hinv hΓ
    have hrun' : some (V, σ, c) = some (V', σ', c') := hrun
    rw [Option.some.injEq, Prod.mk.injEq, Prod.mk.injEq] at hrun'
    obtain ⟨hV, hσ, hc⟩ := hrun'
    subst hV; subst hσ; subst hc
    refine ⟨[], rfl, List.nodup_nil, by simp, by simp, by simp,
      fun u _ => rfl, by simp, le_refl c, hinv⟩
  | cons d ds' ih =>
    intro V σ c Γ V' σ' c' hacyc hrun hinv hΓ
    rw [show pd_post_deps (pd_compute_indices_post G fuel) (d :: ds') V σ c =
        (match pd_compute_indices_post G fuel d V σ c with
         | none => none
         | some (V1, σ1, c1) =>
           pd_post_deps (pd_compute_indices_post G fuel) ds' V1 σ1 c1)
        from rfl] at hrun
    cases hd1 : pd_compute_indices_post G fuel d V σ c with
    | none => rw [hd1] at hrun; exact Option.noConfusion hrun
    | some p1 =>
      obtain ⟨V1, σ1, c1⟩ := p1
      rw [hd1] at hrun
      have hrun2 : pd_post_deps (pd_compute_indices_post G fuel) ds' V1 σ1 c1 =
          some (V', σ', c') := hrun
      obtain ⟨Nd, hV1, hNd_nd, hNd_fresh, hdV1, hreachd, hfrd, hpermd, hled,
          hinv1, -⟩ :=
        hn d V σ c Γ V1 σ1 c1 hacyc hd1 hinv
          (fun g hg => hΓ g hg d (List.mem_cons_self _ _))
      obtain ⟨Nr, hV', hNr_nd, hNr_fresh, hdsV', hreachr, hfrr, hpermr, hler,
          hinv2⟩ :=
        ih V1 σ1 c1 Γ V' σ' c' hacyc hrun2 hinv1
          (fun g hg d' hd' => hΓ g hg d' (List.mem_cons_of_mem _ hd'))
      have hNdV1 : ∀ v ∈ Nd, v ∈ V1 := by
        intro v hv
        rw [hV1]
        exact List.mem_append_left _ hv
      have hdisj : ∀ v ∈ Nr, v ∉ Nd := fun v hv hv2 =>
        hNr_fresh v hv (hNdV1 v hv2)
      refine ⟨Nr ++ Nd, ?_, ?_, ?_, ?_, ?_, ?_, ?_, by omega, hinv2⟩
      · rw [hV', hV1, List.append_assoc]
      · rw [List.nodup_append]
        exact ⟨hNr_nd, hNd_nd, hdisj⟩
      · intro v hv
        rcases List.mem_append.mp hv with h | h
        · intro hvV
          exact hNr_fresh v h (by rw [hV1]; exact List.mem_append_right _ hvV)
        · exact hNd_fresh v h
      · intro d' hd'
        rcases List.mem_cons.mp hd' with h | h
        · subst h
          rw [hV']
          exact List.mem_append_right _ hdV1
        · exact hdsV' d' h
      · intro v hv
        rcases List.mem_append.mp hv with h | h
        · obtain ⟨d', hd', hr⟩ := hreachr v h
          exact ⟨d', List.mem_cons_of_mem _ hd', hr⟩
        · exact ⟨d, List.mem_cons_self _ _, hreachd v h⟩
      · intro u hu
        rw [List.mem_append] at hu
        push_neg at hu
        rw [hfrr u hu.1, hfrd u hu.2]
      · have hmapNd : Nd.map (idxOf σ') = Nd.map (idxOf σ1) := by
          apply List.map_congr_left
          intro v hv
          unfold idxOf
          rw [hfrr v (fun hc => hdisj v hc hv)]
        rw [List.map_append, hmapNd]
        refine (List.perm_append_comm).trans ?_
        refine ((hpermd.append hpermr).trans ?_)
        have hr3 : List.range' c (c1 - c) ++ List.range' c1 (c' - c1) =
            List.range' c (c' - c) := by
          have h0 := List.range'_append_1 c (c1 - c) (c' - c1)
          rw [show c + (c1 - c) = c1 from by omega] at h0
          rw [show c' - c1 + (c1 - c) = c' - c from by omega] at h0
          exact h0
        rw [hr3]

theorem phase_get_or_set_other (σ : PdMap) (irn u : Nat) (h : u ≠ irn) :
    (phase_get_or_set σ irn).2 u = σ u := by
  unfold phase_get_or_set
  cases σ irn with
  | some pdn => rfl
  | none => exact setPd_other _ _ _ _ h

theorem pd_post_visited (G : PEG) (fuel irn : Nat) (V : List Nat) (σ : PdMap)
    (c : Nat) (h : irn ∈ V) :
    pd_compute_indices_post G (fuel + 1) irn V σ c = some (V, σ, c) := by
  rw [pd_compute_indices_post]
  simp [h]

theorem pd_post_fresh (G : PEG) (fuel irn : Nat) (V : List Nat) (σ : PdMap)
    (c : Nat) (h : irn ∉ V) :
    pd_compute_indices_post G (fuel + 1) irn V σ c =
      match pd_post_deps (pd_compute_indices_post G fuel) (G.deps irn)
          (irn :: V) σ c with
      | none => none
      | some (V', σ', c') =>
        some (V', setPd (phase_get_or_set σ' irn).2 irn
          { (phase_get_or_set σ' irn).1 with irn := irn, index := c' },
          c' + 1) := by
  rw [pd_compute_indices_post]
  simp [h]

theorem postNode_all (G : PEG) : ∀ fuel, PostNodeSpec G fuel := by
  intro fuel
  induction fuel with
  | zero =>
    intro irn V σ c Γ V' σ' c' hacyc hrun hinv hΓ
    exact Option.noConfusion hrun
  | succ fuel ih =>
    have hlist := postList_of_postNode G fuel ih
    intro irn V σ c Γ V' σ' c' hacyc hrun hinv hΓ
    by_cases hv : irn ∈ V
    · rw [pd_post_visited G fuel irn V σ c hv] at hrun
      rw [Option.some.injEq, Prod.mk.injEq, Prod.mk.injEq] at hrun
      obtain ⟨hV, hσ, hc⟩ := hrun
      subst hV; subst hσ; subst hc
      exact ⟨[], rfl, List.nodup_nil, by simp, hv, by simp, fun u _ => rfl,
        by simp, le_refl c, hinv, Or.inl hv⟩
    · rw [pd_post_fresh G fuel irn V σ c hv] at hrun
      cases hf : pd_post_deps (pd_compute_indices_post G fuel) (G.deps irn)
          (irn :: V) σ c with
      | none => rw [hf] at hrun; exact Option.noConfusion hrun
      | some p =>
        obtain ⟨V1, σ1, c1⟩ := p
        rw [hf] at hrun
        have hrun' :
            some (V1, setPd (phase_get_or_set σ1 irn).2 irn
              { (phase_get_or_set σ1 irn).1 with irn := irn, index := c1 },
              c1 + 1) = some (V', σ', c') := hrun
        rw [Option.some.injEq, Prod.mk.injEq, Prod.mk.injEq] at hrun'
        obtain ⟨hV, hσ, hc⟩ := hrun'
        subst hV; subst hσ; subst hc
        have hinv1 : PostInv G σ (irn :: V) (irn :: Γ) c := postInv_push hinv hv
        have hΓ1 : ∀ g ∈ irn :: Γ, ∀ d ∈ G.deps irn, Reach G g d := by
          intro g hg d hd
          rcases List.mem_cons.mp hg with h | h
          · subst h; exact Reach.step (Reach.refl g) hd
          · exact Reach.step (hΓ g h) hd
        obtain ⟨Nf, hV1, hNf_nd, hNf_fresh, hdsV1, hreachf, hfrf, hpermf,
            hlef, hinvf⟩ :=
          hlist (G.deps irn) (irn :: V) σ c (irn :: Γ) V1 σ1 c1 hacyc hf
            hinv1 hΓ1
        have hNf_ne_irn : ∀ v ∈ Nf, v ≠ irn := by
          intro v hvN h
          exact hNf_fresh v hvN (h ▸ List.mem_cons_self irn V)
        have hfin_other : ∀ u, u ≠ irn →
            setPd (phase_get_or_set σ1 irn).2 irn
              { (phase_get_or_set σ1 irn).1 with irn := irn, index := c1 } u
              = σ1 u := by
          intro u hu
          rw [setPd_other _ _ _ _ hu, phase_get_or_set_other _ _ _ hu]
        have hfin_irn :
            setPd (phase_get_or_set σ1 irn).2 irn
              { (phase_get_or_set σ1 irn).1 with irn := irn, index := c1 } irn
              = some { (phase_get_or_set σ1 irn).1 with
                  irn := irn, index := c1 } := setPd_same _ _ _
        refine ⟨Nf ++ [irn], ?_, ?_, ?_, ?_, ?_, ?_, ?_, by omega, ?_, ?_⟩
        · rw [hV1, List.append_assoc]
          rfl
        · rw [List.nodup_append]
          refine ⟨hNf_nd, List.nodup_singleton irn, ?_⟩
          intro v hvN hv1
          exact hNf_ne_irn v hvN (List.mem_singleton.mp hv1)
        · intro v hvm
          rcases List.mem_append.mp hvm with h | h
          · intro hvV
            exact hNf_fresh v h (List.mem_cons_of_mem _ hvV)
          · rw [List.mem_singleton.mp h]
            exact hv
        · rw [hV1]
          exact List.mem_append_right _ (List.mem_cons_self _ _)
        · intro v hvm
          rcases List.mem_append.mp hvm with h | h
          · obtain ⟨d, hd, hr⟩ := hreachf v h
            exact reach_trans (Reach.step (Reach.refl irn) hd) hr
          · rw [List.mem_singleton.mp h]
            exact Reach.refl irn
        · intro u hu
          rw [List.mem_append] at hu
          push_neg at hu
          have hune : u ≠ irn := fun h => hu.2 (by rw [h]; exact List.mem_singleton.mpr rfl)
          rw [hfin_other u hune, hfrf u hu.1]
        · rw [List.map_append]
          have hmapNf : Nf.map (idxOf (setPd (phase_get_or_set σ1 irn).2 irn
              { (phase_get_or_set σ1 irn).1 with irn := irn, index := c1 }))
              = Nf.map (idxOf σ1) := by
            apply List.map_congr_left
            intro v hvN
            unfold idxOf
            rw [hfin_other v (hNf_ne_irn v hvN)]
          rw [hmapNf]
          have hidxirn : [irn].map (idxOf (setPd (phase_get_or_set σ1 irn).2 irn
              { (phase_get_or_set σ1 irn).1 with irn := irn, index := c1 }))
              = [c1] := by
            unfold idxOf
            rw [List.map_singleton, hfin_irn]
          rw [hidxirn]
          have hr3 : List.range' c (c1 - c) ++ [c1] =
              List.range' c (c1 + 1 - c) := by
            have h0 := @List.range'_concat 1 c (c1 - c)
            rw [show c + 1 * (c1 - c) = c1 from by omega] at h0
            rw [show c1 + 1 - c = c1 - c + 1 from by omega]
            exact h0.symm
          rw [← hr3]
          exact hpermf.append (List.Perm.refl [c1])
        · constructor
          · intro g hg
            rw [hV1]
            exact List.mem_append_right _
              (List.mem_cons_of_mem _ (hinv.1 g hg))
          · intro v hvV1 hvΓ
            by_cases hvi : v = irn
            · refine ⟨{ (phase_get_or_set σ1 irn).1 with
                  irn := irn, index := c1 }, ?_, ?_, ?_⟩
              · rw [hvi]; exact hfin_irn
              · show c1 < c1 + 1
                omega
              · intro d hd
                rw [hvi] at hd
                have hdΓ1 : d ∉ irn :: Γ := by
                  intro hc
                  rcases List.mem_cons.mp hc with h | h
                  · exact hacyc irn d hd (by rw [h]; exact Reach.refl irn)
                  · exact hacyc irn d hd (hΓ d h)
                have hdne : d ≠ irn := fun h =>
                  hdΓ1 (h ▸ List.mem_cons_self irn Γ)
                obtain ⟨pd, hpd, hpidx, -⟩ :=
                  hinvf.2 d (hdsV1 d hd) hdΓ1
                refine ⟨hdsV1 d hd, fun h => hdΓ1 (List.mem_cons_of_mem _ h),
                  pd, ?_, ?_⟩
                · rw [hfin_other d hdne]
                  exact hpd
                · show pd.index < c1
                  omega
            · have hvΓ1 : v ∉ irn :: Γ := by
                intro hc
                rcases List.mem_cons.mp hc with h | h
                · exact hvi h
                · exact hvΓ h
              obtain ⟨pdn, hpdn, hpidx, hdeps⟩ := hinvf.2 v hvV1 hvΓ1
              refine ⟨pdn, ?_, by omega, ?_⟩
              · rw [hfin_other v hvi]
                exact hpdn
              · intro d hd
                obtain ⟨hdV, hdΓ1, pd, hpd, hpidx2⟩ := hdeps d hd
                have hdne : d ≠ irn := fun h =>
                  hdΓ1 (h ▸ List.mem_cons_self irn Γ)
                refine ⟨hdV, fun h => hdΓ1 (List.mem_cons_of_mem _ h),
                  pd, ?_, hpidx2⟩
                rw [hfin_other d hdne]
                exact hpd
        · exact Or.inr ⟨_, hfin_irn, rfl⟩

/-- C6: on an acyclic dependence graph, the Index Assigner's depth-first
walk from the sink (as invoked by `pd_init`: empty visited set, counter 0)
visits exactly the nodes reachable from the sink via dependency edges, each
exactly once (`V'.Nodup` plus the reachability equivalence); the assigned
indices are a permutation of `0 … n-1` over exactly those nodes; and a
node's index is assigned after all of its dependencies' indices (every
dependency carries a strictly smaller index). -/
theorem C6_postorder_permutation (G : PEG) (fuel : Nat) (σ0 : PdMap)
    (V' : List Nat) (σ' : PdMap) (n : Nat)
    (hacyc : AcyclicDeps G)
    (hrun : pd_compute_indices_post G fuel G.sink [] σ0 0 =
      some (V', σ', n)) :
    V'.Nodup ∧
    (∀ v, v ∈ V' ↔ Reach G G.sink v) ∧
    ((V'.map (idxOf σ')).Perm (List.range n)) ∧
    (∀ v ∈ V', ∃ pdn, σ' v = some pdn ∧ pdn.index < n) ∧
    (∀ v ∈ V', ∀ d ∈ G.deps v, d ∈ V' ∧ idxOf σ' d < idxOf σ' v) := by
  have hinv0 : PostInv G σ0 [] [] 0 := ⟨by simp, by simp⟩
  obtain ⟨N, hV', hnd, hfresh, hmem, hreach, hfr, hperm, hle, hinvf, hlast⟩ :=
    postNode_all G fuel G.sink [] σ0 0 [] V' σ' n hacyc hrun hinv0 (by simp)
  rw [List.append_nil] at hV'
  subst hV'
  have hclosed : ∀ v ∈ V', ∀ d ∈ G.deps v, d ∈ V' := by
    intro v hv d hd
    obtain ⟨pdn, -, -, hdeps⟩ := hinvf.2 v hv (by simp)
    exact (hdeps d hd).1
  refine ⟨hnd, ?_, ?_, ?_, ?_⟩
  · intro v
    constructor
    · exact hreach v
    · intro h
      induction h with
      | refl => exact hmem
      | step h1 hd ih => exact hclosed _ ih _ hd
  · have : n - 0 = n := by omega
    rw [this] at hperm
    rw [List.range_eq_range']
    exact hperm
  · intro v hv
    obtain ⟨pdn, hσ, hidx, -⟩ := hinvf.2 v hv (by simp)
    exact ⟨pdn, hσ, hidx⟩
  · intro v hv d hd
    obtain ⟨pdn, hσ, hidx, hdeps⟩ := hinvf.2 v hv (by simp)
    obtain ⟨hdV, -, pd, hpd, hpidx⟩ := hdeps d hd
    refine ⟨hdV, ?_⟩
    unfold idxOf
    rw [hσ, hpd]
    exact hpidx

theorem C6_witness :
    AcyclicDeps diamondG ∧
    pd_compute_indices_post diamondG 100 diamondG.sink [] c6Start 0 =
      some (c6Out.1, c6Out.2.1, c6Out.2.2) ∧
    c6Out.1.Nodup ∧
    ((c6Out.1.map (idxOf c6Out.2.1)).Perm (List.range c6Out.2.2)) := by
  have hacyc : AcyclicDeps diamondG := by
    apply acyclicDeps_of_rank diamondG
      (fun n => if n = 0 then 2 else if n = 3 then 0 else 1)
    intro v d hd
    by_cases h0 : v = 0
    · subst h0
      have hd' : d = 1 ∨ d = 2 := by simpa [diamondG] using hd
      rcases hd' with h | h <;> subst h <;> decide
    · by_cases h1 : v = 1
      · subst h1
        have hd' : d = 3 := by simpa [diamondG] using hd
        subst hd'
        decide
      · by_cases h2 : v = 2
        · subst h2
          have hd' : d = 3 := by simpa [diamondG] using hd
          subst hd'
          decide
        · have : False := by simp [diamondG, h0, h1, h2] at hd
          exact this.elim
  have H := C6_postorder_permutation diamondG 100 c6Start c6Out.1 c6Out.2.1
    c6Out.2.2 hacyc rfl
  exact ⟨hacyc, rfl, H.1, H.2.2.1⟩

/-- Under the invariant an attached node's `parent` field is never a
self-reference. -/
theorem treeInv_no_self_parent {G : PEG} {root : Nat} {σ : PdMap}
    (hinv : TreeInv G root σ) :
    ∀ v pv, σ v = some pv → pv.parent ≠ some v := by
  intro v pv hv hself
  by_cases hroot : v = root
  · obtain ⟨r, hr, -, hrpar⟩ := hinv.rootRec
    rw [hroot] at hv
    rw [hv] at hr
    cases Option.some.inj hr
    rw [hrpar] at hself
    exact Option.noConfusion hself
  · have hdef : pv.defined = true := by
      cases hdf : pv.defined with
      | false =>
        have := hinv.undefNoParent v pv hv hdf
        rw [this] at hself
        exact absurd hself (by simp)
      | true => rfl
    obtain ⟨p, pp, hpar, hps, -, hlt⟩ := hinv.parentDef v pv hv hroot hdef
    rw [hpar] at hself
    have hp : p = v := Option.some.inj hself
    rw [hp] at hps
    rw [hv] at hps
    cases Option.some.inj hps
    omega

/-- A node with a parent pointer is attached (`defined`). -/
theorem treeInv_parent_defined {G : PEG} {root : Nat} {σ : PdMap}
    (hinv : TreeInv G root σ) :
    ∀ v pv p, σ v = some pv → pv.parent = some p → pv.defined = true := by
  intro v pv p hv hpar
  cases hdf : pv.defined with
  | false =>
    have := hinv.undefNoParent v pv hv hdf
    rw [this] at hpar
    exact Option.noConfusion hpar
  | true => rfl

/-- Core preservation step for C4: if `σ'` is `σ` with `irn` reparented
under a defined `idom` of larger index and marked defined — `irn`'s shadow
gets `parent := idom, defined := 1`, `idom`'s child list gets `irn`
appended, and every other shadow merely loses `irn` from its child list —
then the tree invariant carries over. -/
theorem treeInv_update {G : PEG} {root : Nat} {σ σ' : PdMap} {irn idom : Nat}
    {pdn pidom : PdNode}
    (hinv : TreeInv G root σ) (hirn : σ irn = some pdn) (hroot : irn ≠ root)
    (hidom : σ idom = some pidom) (hdef : pidom.defined = true)
    (hlt : pdn.index < pidom.index) (hne : pdn.parent ≠ some idom)
    (hii : irn ≠ idom)
    (hA : σ' irn = some { pdn with parent := some idom, defined := true })
    (hB : σ' idom = some { pidom with children := pidom.children ++ [irn] })
    (hC : ∀ u, u ≠ irn → u ≠ idom →
      σ' u = (σ u).map fun pu => { pu with children := pu.children.erase irn }) :
    TreeInv G root σ' := by
  have hrootne : root ≠ irn := Ne.symm hroot
  have hDparNotIrn : pidom.parent ≠ some irn := by
    intro hcontra
    by_cases hidroot : idom = root
    · obtain ⟨r, hr, -, hrpar⟩ := hinv.rootRec
      rw [hidroot] at hidom
      rw [hidom] at hr
      cases Option.some.inj hr
      rw [hrpar] at hcontra
      exact Option.noConfusion hcontra
    · obtain ⟨p, pp, hpar, hps, -, hlt2⟩ := hinv.parentDef idom pidom hidom hidroot hdef
      rw [hpar] at hcontra
      have hpi : p = irn := Option.some.inj hcontra
      rw [hpi] at hps
      rw [hirn] at hps
      cases Option.some.inj hps
      omega
  have hirnNotInD : irn ∉ pidom.children := by
    intro hmem
    obtain ⟨pc, hpc, hpcp, -⟩ := hinv.childParent idom pidom hidom irn hmem
    rw [hirn] at hpc
    cases Option.some.inj hpc
    exact hne hpcp
  have hOther : ∀ u pu, u ≠ irn → u ≠ idom → σ u = some pu →
      σ' u = some { pu with children := pu.children.erase irn } := by
    intro u pu h1 h2 hu
    rw [hC u h1 h2, hu]
    rfl
  have hOtherRev : ∀ u pu', u ≠ irn → u ≠ idom → σ' u = some pu' →
      ∃ pu, σ u = some pu ∧
        pu' = { pu with children := pu.children.erase irn } := by
    intro u pu' h1 h2 hu'
    rw [hC u h1 h2] at hu'
    cases hσu : σ u with
    | none => rw [hσu] at hu'; exact Option.noConfusion hu'
    | some pu =>
      rw [hσu] at hu'
      exact ⟨pu, rfl, (Option.some.inj hu').symm⟩
  have hidx_pres : ∀ u pu', σ' u = some pu' →
      ∃ pu, σ u = some pu ∧ pu'.index = pu.index := by
    intro u pu' hu'
    by_cases h1 : u = irn
    · rw [h1] at hu' ⊢
      rw [hA] at hu'
      exact ⟨pdn, hirn, by rw [← Option.some.inj hu']⟩
    · by_cases h2 : u = idom
      · rw [h2] at hu' ⊢
        rw [hB] at hu'
        exact ⟨pidom, hidom, by rw [← Option.some.inj hu']⟩
      · obtain ⟨pu, hpu, heq⟩ := hOtherRev u pu' h1 h2 hu'
        exact ⟨pu, hpu, by rw [heq]⟩
  refine ⟨?_, ?_, ?_, ?_, ?_, ?_, ?_, ?_⟩
  · -- rootRec
    obtain ⟨r, hr, hrdef, hrpar⟩ := hinv.rootRec
    by_cases hrI : root = idom
    · refine ⟨{ pidom with children := pidom.children ++ [irn] }, ?_, hdef, ?_⟩
      · rw [hrI]; exact hB
      · show pidom.parent = none
        rw [hrI] at hr
        rw [hidom] at hr
        cases Option.some.inj hr
        exact hrpar
    · refine ⟨{ r with children := r.children.erase irn }, hOther root r hrootne hrI hr, hrdef, hrpar⟩
  · -- rootMax
    intro v pdnv r' hv hroot' hvne
    obtain ⟨pv, hpv, hpvidx⟩ := hidx_pres v pdnv hv
    obtain ⟨pr, hpr, hpridx⟩ := hidx_pres root r' hroot'
    rw [hpvidx, hpridx]
    exact hinv.rootMax v pv pr hpv hpr hvne
  · -- parentDef
    intro v pv' hv' hvroot hvdef
    by_cases hvI : v = irn
    · rw [hvI] at hv'
      rw [hA] at hv'
      have hpv' := Option.some.inj hv'
      refine ⟨idom, { pidom with children := pidom.children ++ [irn] }, ?_, hB, hdef, ?_⟩
      · rw [← hpv']
      · rw [← hpv']
        show pdn.index < pidom.index
        exact hlt
    · by_cases hvD : v = idom
      · rw [hvD] at hv' hvroot
        rw [hB] at hv'
        have hpv' := Option.some.inj hv'
        obtain ⟨p, pp, hpar, hps, hppdef, hlt2⟩ :=
          hinv.parentDef idom pidom hidom hvroot hdef
        have hpirn : p ≠ irn := by
          intro h
          rw [h] at hps
          rw [hirn] at hps
          cases Option.some.inj hps
          omega
        have hpidm : p ≠ idom := by
          intro h
          rw [h] at hpar
          exact treeInv_no_self_parent hinv idom pidom hidom hpar
        refine ⟨p, { pp with children := pp.children.erase irn },
          ?_, hOther p pp hpirn hpidm hps, hppdef, ?_⟩
        · rw [← hpv']
          exact hpar
        · rw [← hpv']
          show pidom.index < pp.index
          exact hlt2
      · obtain ⟨pv, hpv, hpveq⟩ := hOtherRev v pv' hvI hvD hv'
        have hpvdef : pv.defined = true := by
          rw [hpveq] at hvdef
          exact hvdef
        obtain ⟨p, pp, hpar, hps, hppdef, hlt2⟩ :=
          hinv.parentDef v pv hpv hvroot hpvdef
        by_cases hpI : p = irn
        · rw [hpI] at hps
          rw [hirn] at hps
          cases Option.some.inj hps
          refine ⟨irn, { pdn with parent := some idom, defined := true },
            ?_, hA, rfl, ?_⟩
          · rw [hpveq, ← hpI]
            exact hpar
          · rw [hpveq]
            show pv.index < pdn.index
            exact hlt2
        · by_cases hpD : p = idom
          · rw [hpD] at hps
            rw [hidom] at hps
            cases Option.some.inj hps
            refine ⟨idom, { pidom with children := pidom.children ++ [irn] },
              ?_, hB, hdef, ?_⟩
            · rw [hpveq, ← hpD]
              exact hpar
            · rw [hpveq]
              show pv.index < pidom.index
              exact hlt2
          · refine ⟨p, { pp with children := pp.children.erase irn },
              ?_, hOther p pp hpI hpD hps, hppdef, ?_⟩
            · rw [hpveq]
              exact hpar
            · rw [hpveq]
              show pv.index < pp.index
              exact hlt2
  · -- undefNoParent
    intro v pv' hv' hundef
    by_cases hvI : v = irn
    · rw [hvI] at hv'
      rw [hA] at hv'
      rw [← Option.some.inj hv'] at hundef
      exact Bool.noConfusion hundef
    · by_cases hvD : v = idom
      · rw [hvD] at hv'
        rw [hB] at hv'
        rw [← Option.some.inj hv'] at hundef
        have h2 : pidom.defined = false := hundef
        rw [hdef] at h2
        exact Bool.noConfusion h2
      · obtain ⟨pv, hpv, hpveq⟩ := hOtherRev v pv' hvI hvD hv'
        have h2 : pv.defined = false := by
          rw [hpveq] at hundef
          exact hundef
        have hnone := hinv.undefNoParent v pv hpv h2
        rw [hpveq]
        show pv.parent = none
        exact hnone
  · -- childParent
    intro p pp' hp' c hcmem
    by_cases hpI : p = irn
    · rw [hpI] at hp'
      rw [hA] at hp'
      have hpp' := Option.some.inj hp'
      have hcmem2 : c ∈ pdn.children := by
        rw [← hpp'] at hcmem
        exact hcmem
      obtain ⟨pc, hpc, hpcp, hpcd⟩ := hinv.childParent irn pdn hirn c hcmem2
      have hcI : c ≠ irn := by
        intro h
        rw [h] at hpc
        rw [hirn] at hpc
        cases Option.some.inj hpc
        exact treeInv_no_self_parent hinv irn pdn hirn hpcp
      have hcD : c ≠ idom := by
        intro h
        rw [h] at hpc
        rw [hidom] at hpc
        cases Option.some.inj hpc
        exact hDparNotIrn hpcp
      refine ⟨{ pc with children := pc.children.erase irn },
        hOther c pc hcI hcD hpc, ?_, hpcd⟩
      show pc.parent = some p
      rw [hpI]
      exact hpcp
    · by_cases hpD : p = idom
      · rw [hpD] at hp'
        rw [hB] at hp'
        have hpp' := Option.some.inj hp'
        have hcmem2 : c ∈ pidom.children ++ [irn] := by
          rw [← hpp'] at hcmem
          exact hcmem
        rcases List.mem_append.mp hcmem2 with hcm | hcm
        · obtain ⟨pc, hpc, hpcp, hpcd⟩ :=
            hinv.childParent idom pidom hidom c hcm
          have hcI : c ≠ irn := by
            intro h
            rw [h] at hpc
            rw [hirn] at hpc
            cases Option.some.inj hpc
            exact hne hpcp
          have hcD : c ≠ idom := by
            intro h
            rw [h] at hpc
            rw [hidom] at hpc
            cases Option.some.inj hpc
            exact treeInv_no_self_parent hinv idom pidom hidom hpcp
          refine ⟨{ pc with children := pc.children.erase irn },
            hOther c pc hcI hcD hpc, ?_, hpcd⟩
          show pc.parent = some p
          rw [hpD]
          exact hpcp
        · have hcirn : c = irn := List.mem_singleton.mp hcm
          rw [hcirn]
          refine ⟨{ pdn with parent := some idom, defined := true }, hA, ?_, rfl⟩
          show some idom = some p
          rw [hpD]
      · obtain ⟨ppO, hppO, hppeq⟩ := hOtherRev p pp' hpI hpD hp'
        have hnd := hinv.childNodup p ppO hppO
        have hcmem2 : c ∈ ppO.children.erase irn := by
          rw [hppeq] at hcmem
          exact hcmem
        have hcmem3 : c ≠ irn ∧ c ∈ ppO.children :=
          (List.Nodup.mem_erase_iff hnd).mp hcmem2
        obtain ⟨pc, hpc, hpcp, hpcd⟩ :=
          hinv.childParent p ppO hppO c hcmem3.2
        by_cases hcD : c = idom
        · rw [hcD] at hpc
          rw [hidom] at hpc
          cases Option.some.inj hpc
          rw [hcD]
          exact ⟨{ pidom with children := pidom.children ++ [irn] }, hB,
            hpcp, hpcd⟩
        · refine ⟨{ pc with children := pc.children.erase irn },
            hOther c pc hcmem3.1 hcD hpc, hpcp, hpcd⟩
  · -- parentChild
    intro v pv' hv' p hpar'
    by_cases hvI : v = irn
    · rw [hvI] at hv'
      rw [hA] at hv'
      have hpv' := Option.some.inj hv'
      have hpidom : p = idom := by
        rw [← hpv'] at hpar'
        exact (Option.some.inj hpar').symm
      rw [hpidom, hvI]
      exact ⟨{ pidom with children := pidom.children ++ [irn] }, hB,
        List.mem_append_right _ (List.mem_singleton.mpr rfl)⟩
    · by_cases hvD : v = idom
      · rw [hvD] at hv'
        rw [hB] at hv'
        have hpv' := Option.some.inj hv'
        have hpar2 : pidom.parent = some p := by
          rw [← hpv'] at hpar'
          exact hpar'
        obtain ⟨pp, hps, hmem⟩ := hinv.parentChild idom pidom hidom p hpar2
        have hpirn : p ≠ irn := by
          intro h
          rw [h] at hpar2
          exact hDparNotIrn hpar2
        have hpidm : p ≠ idom := by
          intro h
          rw [h] at hpar2
          exact treeInv_no_self_parent hinv idom pidom hidom hpar2
        refine ⟨{ pp with children := pp.children.erase irn },
          hOther p pp hpirn hpidm hps, ?_⟩
        rw [hvD]
        exact (List.Nodup.mem_erase_iff (hinv.childNodup p pp hps)).mpr
          ⟨Ne.symm hii, hmem⟩
      · obtain ⟨pv, hpv, hpveq⟩ := hOtherRev v pv' hvI hvD hv'
        have hpar2 : pv.parent = some p := by
          rw [hpveq] at hpar'
          exact hpar'
        obtain ⟨pp, hps, hmem⟩ := hinv.parentChild v pv hpv p hpar2
        by_cases hpI : p = irn
        · rw [hpI] at hps
          rw [hirn] at hps
          cases Option.some.inj hps
          refine ⟨{ pdn with parent := some idom, defined := true }, ?_, ?_⟩
          · rw [hpI]
            exact hA
          · show v ∈ pdn.children
            exact hmem
        · by_cases hpD : p = idom
          · rw [hpD] at hps
            rw [hidom] at hps
            cases Option.some.inj hps
            refine ⟨{ pidom with children := pidom.children ++ [irn] }, ?_, ?_⟩
            · rw [hpD]
              exact hB
            · exact List.mem_append_left _ hmem
          · refine ⟨{ pp with children := pp.children.erase irn },
              hOther p pp hpI hpD hps, ?_⟩
            exact (List.Nodup.mem_erase_iff (hinv.childNodup p pp hps)).mpr
              ⟨hvI, hmem⟩
  · -- childNodup
    intro p pp' hp'
    by_cases hpI : p = irn
    · rw [hpI] at hp'
      rw [hA] at hp'
      rw [← Option.some.inj hp']
      show pdn.children.Nodup
      exact hinv.childNodup irn pdn hirn
    · by_cases hpD : p = idom
      · rw [hpD] at hp'
        rw [hB] at hp'
        rw [← Option.some.inj hp']
        show (pidom.children ++ [irn]).Nodup
        rw [List.nodup_append]
        refine ⟨hinv.childNodup idom pidom hidom, List.nodup_singleton irn, ?_⟩
        intro a ha ha2
        rw [List.mem_singleton.mp ha2] at ha
        exact hirnNotInD ha
      · obtain ⟨ppO, hppO, hppeq⟩ := hOtherRev p pp' hpI hpD hp'
        rw [hppeq]
        show (ppO.children.erase irn).Nodup
        exact List.Nodup.erase irn (hinv.childNodup p ppO hppO)
  · -- useIdx
    intro v pv' u pu' hv' hu' huse
    obtain ⟨pv, hpv, hpvidx⟩ := hidx_pres v pv' hv'
    obtain ⟨pu, hpu, hpuidx⟩ := hidx_pres u pu' hu'
    rw [hpvidx, hpuidx]
    exact hinv.useIdx v pv u pu hpv hpu huse

theorem pd_detach_none {σ : PdMap} {child : Nat} {c : PdNode}
    (hc : σ child = some c) (hp : c.parent = none) :
    pd_detach σ child = σ := by
  unfold pd_detach
  rw [hc]
  show (match c.parent with
    | some oldp =>
      match σ oldp with
      | some op => setPd σ oldp { op with children := op.children.erase child }
      | none => σ
    | none => σ) = σ
  rw [hp]

theorem pd_detach_some {σ : PdMap} {child oldp : Nat} {c op : PdNode}
    (hc : σ child = some c) (hp : c.parent = some oldp)
    (hop : σ oldp = some op) :
    pd_detach σ child =
      setPd σ oldp { op with children := op.children.erase child } := by
  unfold pd_detach
  rw [hc]
  show (match c.parent with
    | some oldp =>
      match σ oldp with
      | some op => setPd σ oldp { op with children := op.children.erase child }
      | none => σ
    | none => σ) =
    setPd σ oldp { op with children := op.children.erase child }
  rw [hp]
  show (match σ oldp with
    | some op => setPd σ oldp { op with children := op.children.erase child }
    | none => σ) =
    setPd σ oldp { op with children := op.children.erase child }
  rw [hop]

theorem pd_attach_parent_eq {σ : PdMap} {child : Nat} {c : PdNode}
    (parent : Nat) (hc : σ child = some c) :
    pd_attach_parent σ parent child =
      setPd σ child { c with parent := some parent } := by
  unfold pd_attach_parent
  rw [hc]

theorem pd_append_child_eq {σ : PdMap} {parent : Nat} {p : PdNode}
    (child : Nat) (hp : σ parent = some p) :
    pd_append_child σ parent child =
      setPd σ parent { p with children := p.children ++ [child] } := by
  unfold pd_append_child
  rw [hp]

theorem pd_mark_defined_eq {σ : PdMap} {irn : Nat} {pdn : PdNode}
    (h : σ irn = some pdn) :
    pd_mark_defined σ irn = setPd σ irn { pdn with defined := true } := by
  unfold pd_mark_defined
  rw [h]

/-- The reparenting performed by `pd_compute` — `pd_set_parent(pd_idom,
pdn)` followed by `pdn->defined = 1` — preserves the tree invariant
whenever the new parent is defined with a strictly larger index (which
`pd_compute` guarantees, see `pd_find_idom`/`pd_compute_intersect`). -/
theorem treeInv_reparent {G : PEG} {root : Nat} {σ : PdMap} {irn idom : Nat}
    {pdn pidom : PdNode}
    (hinv : TreeInv G root σ) (hirn : σ irn = some pdn) (hroot : irn ≠ root)
    (hidom : σ idom = some pidom) (hdef : pidom.defined = true)
    (hlt : pdn.index < pidom.index) (hne : pdn.parent ≠ some idom) :
    TreeInv G root (pd_mark_defined (pd_set_parent σ idom irn) irn) := by
  have hii : irn ≠ idom := by
    intro h
    rw [h] at hirn
    rw [hirn] at hidom
    cases Option.some.inj hidom
    omega
  cases hp : pdn.parent with
  | none =>
    have hd : pd_detach σ irn = σ := pd_detach_none hirn hp
    have hap := pd_attach_parent_eq idom hirn
    have hA_idom : setPd σ irn { pdn with parent := some idom } idom
        = some pidom := by
      rw [setPd_other _ _ _ _ (Ne.symm hii)]
      exact hidom
    have hac := pd_append_child_eq irn hA_idom
    have hB_irn : setPd (setPd σ irn { pdn with parent := some idom }) idom
        { pidom with children := pidom.children ++ [irn] } irn
        = some { pdn with parent := some idom } := by
      rw [setPd_other _ _ _ _ hii, setPd_same]
    have hm := pd_mark_defined_eq hB_irn
    have hfull : pd_mark_defined (pd_set_parent σ idom irn) irn =
        setPd (setPd (setPd σ irn { pdn with parent := some idom }) idom
          { pidom with children := pidom.children ++ [irn] }) irn
          { { pdn with parent := some idom } with defined := true } := by
      unfold pd_set_parent
      rw [hd, hap, hac, hm]
    rw [hfull]
    refine treeInv_update hinv hirn hroot hidom hdef hlt hne hii ?_ ?_ ?_
    · rw [setPd_same]
    · rw [setPd_other _ _ _ _ (Ne.symm hii), setPd_same]
    · intro u h1 h2
      rw [setPd_other _ _ _ _ h1, setPd_other _ _ _ _ h2,
        setPd_other _ _ _ _ h1]
      cases hσu : σ u with
      | none => rfl
      | some pu =>
        have hnotmem : irn ∉ pu.children := by
          intro hmem
          obtain ⟨pc, hpc, hpcp, -⟩ := hinv.childParent u pu hσu irn hmem
          rw [hirn] at hpc
          cases Option.some.inj hpc
          rw [hp] at hpcp
          exact Option.noConfusion hpcp
        rw [Option.map_some', List.erase_of_not_mem hnotmem]
  | some oldp =>
    have hpdndef : pdn.defined = true :=
      treeInv_parent_defined hinv irn pdn oldp hirn hp
    obtain ⟨p2, pp2, hpar2, hps2, -, hlt3⟩ :=
      hinv.parentDef irn pdn hirn hroot hpdndef
    rw [hp] at hpar2
    have hp2 : p2 = oldp := (Option.some.inj hpar2).symm
    rw [hp2] at hps2
    have hOI : oldp ≠ irn := by
      intro h
      rw [h] at hps2
      rw [hirn] at hps2
      cases Option.some.inj hps2
      omega
    have hOD : oldp ≠ idom := by
      intro h
      rw [← h] at hne
      exact hne hp
    have hd : pd_detach σ irn =
        setPd σ oldp { pp2 with children := pp2.children.erase irn } :=
      pd_detach_some hirn hp hps2
    have hD_irn : setPd σ oldp
        { pp2 with children := pp2.children.erase irn } irn = some pdn := by
      rw [setPd_other _ _ _ _ (Ne.symm hOI)]
      exact hirn
    have hap := pd_attach_parent_eq idom hD_irn
    have hA_idom : setPd (setPd σ oldp
        { pp2 with children := pp2.children.erase irn }) irn
        { pdn with parent := some idom } idom = some pidom := by
      rw [setPd_other _ _ _ _ (Ne.symm hii),
        setPd_other _ _ _ _ (Ne.symm hOD)]
      exact hidom
    have hac := pd_append_child_eq irn hA_idom
    have hB_irn : setPd (setPd (setPd σ oldp
        { pp2 with children := pp2.children.erase irn }) irn
        { pdn with parent := some idom }) idom
        { pidom with children := pidom.children ++ [irn] } irn
        = some { pdn with parent := some idom } := by
      rw [setPd_other _ _ _ _ hii, setPd_same]
    have hm := pd_mark_defined_eq hB_irn
    have hfull : pd_mark_defined (pd_set_parent σ idom irn) irn =
        setPd (setPd (setPd (setPd σ oldp
          { pp2 with children := pp2.children.erase irn }) irn
          { pdn with parent := some idom }) idom
          { pidom with children := pidom.children ++ [irn] }) irn
          { { pdn with parent := some idom } with defined := true } := by
      unfold pd_set_parent
      rw [hd, hap, hac, hm]
    rw [hfull]
    refine treeInv_update hinv hirn hroot hidom hdef hlt hne hii ?_ ?_ ?_
    · rw [setPd_same]
    · rw [setPd_other _ _ _ _ (Ne.symm hii), setPd_same]
    · intro u h1 h2
      rw [setPd_other _ _ _ _ h1, setPd_other _ _ _ _ h2,
        setPd_other _ _ _ _ h1]
      by_cases hO : u = oldp
      · rw [hO, setPd_same, hps2, Option.map_some']
      · rw [setPd_other _ _ _ _ hO]
        cases hσu : σ u with
        | none => rfl
        | some pu =>
          have hnotmem : irn ∉ pu.children := by
            intro hmem
            obtain ⟨pc, hpc, hpcp, -⟩ := hinv.childParent u pu hσu irn hmem
            rw [hirn] at hpc
            cases Option.some.inj hpc
            rw [hp] at hpcp
            exact hO (Option.some.inj hpcp).symm
          rw [Option.map_some', List.erase_of_not_mem hnotmem]

/-- `pd_find_idom` returns a defined use from the scanned list. -/
theorem pd_find_idom_spec (σ : PdMap) :
    ∀ (us : List Nat) (u : Nat), pd_find_idom σ us = some u →
      u ∈ us ∧ ∃ pu, σ u = some pu ∧ pu.defined = true := by
  intro us
  induction us with
  | nil => intro u h; exact Option.noConfusion h
  | cons x us ih =>
    intro u h
    unfold pd_find_idom at h
    split at h
    · obtain ⟨hm, hrest⟩ := ih u h
      exact ⟨List.mem_cons_of_mem _ hm, hrest⟩
    · next pdu hx =>
      split at h
      · next hd =>
        cases Option.some.inj h
        exact ⟨List.mem_cons_self _ _, pdu, hx, hd⟩
      · obtain ⟨hm, hrest⟩ := ih u h
        exact ⟨List.mem_cons_of_mem _ hm, hrest⟩

/-- Under the tree invariant, a successful intersection walk started from
two defined nodes with indices above `n` ends at a defined node with index
above `n` (the walk only moves to parents, whose indices are larger). -/
theorem pd_compute_intersect_spec {G : PEG} {root : Nat} {σ : PdMap}
    (hinv : TreeInv G root σ) (n : Nat) :
    ∀ (fuel a b r : Nat) (pa pb : PdNode),
      σ a = some pa → pa.defined = true → n < pa.index →
      σ b = some pb → pb.defined = true → n < pb.index →
      pd_compute_intersect σ fuel a b = some r →
      ∃ pr, σ r = some pr ∧ pr.defined = true ∧ n < pr.index := by
  intro fuel
  induction fuel with
  | zero =>
    intro a b r pa pb _ _ _ _ _ _ hrun
    exact Option.noConfusion hrun
  | succ fuel ih =>
    intro a b r pa pb ha hadef haidx hb hbdef hbidx hrun
    unfold pd_compute_intersect at hrun
    by_cases hab : a = b
    · rw [if_pos hab] at hrun
      cases Option.some.inj hrun
      exact ⟨pa, ha, hadef, haidx⟩
    · rw [if_neg hab, ha, hb] at hrun
      have hrun2 : (if pa.index < pb.index then
            match pa.parent with
            | some lp => pd_compute_intersect σ fuel lp b
            | none => none
          else if pb.index < pa.index then
            match pb.parent with
            | some rp => pd_compute_intersect σ fuel a rp
            | none => none
          else none) = some r := hrun
      by_cases hcmp : pa.index < pb.index
      · rw [if_pos hcmp] at hrun2
        cases hpar : pa.parent with
        | none => rw [hpar] at hrun2; exact Option.noConfusion hrun2
        | some lp =>
          rw [hpar] at hrun2
          have haroot : a ≠ root := by
            intro h
            obtain ⟨r0, hr0, -, hr0par⟩ := hinv.rootRec
            rw [h] at ha
            rw [ha] at hr0
            cases Option.some.inj hr0
            rw [hr0par] at hpar
            exact Option.noConfusion hpar
          obtain ⟨p, pp, hpar2, hps, hppdef, hlt2⟩ :=
            hinv.parentDef a pa ha haroot hadef
          rw [hpar] at hpar2
          have hplp : p = lp := (Option.some.inj hpar2).symm
          rw [hplp] at hps
          exact ih lp b r pp pb hps hppdef (by omega) hb hbdef hbidx hrun2
      · rw [if_neg hcmp] at hrun2
        by_cases hcmp2 : pb.index < pa.index
        · rw [if_pos hcmp2] at hrun2
          cases hpar : pb.parent with
          | none => rw [hpar] at hrun2; exact Option.noConfusion hrun2
          | some rp =>
            rw [hpar] at hrun2
            have hbroot : b ≠ root := by
              intro h
              obtain ⟨r0, hr0, -, hr0par⟩ := hinv.rootRec
              rw [h] at hb
              rw [hb] at hr0
              cases Option.some.inj hr0
              rw [hr0par] at hpar
              exact Option.noConfusion hpar
            obtain ⟨p, pp, hpar2, hps, hppdef, hlt2⟩ :=
              hinv.parentDef b pb hb hbroot hbdef
            rw [hpar] at hpar2
            have hprp : p = rp := (Option.some.inj hpar2).symm
            rw [hprp] at hps
            exact ih a rp r pa pp ha hadef haidx hps hppdef (by omega) hrun2
        · rw [if_neg hcmp2] at hrun2
          exact Option.noConfusion hrun2

/-- The fold of `pd_compute_intersect` over the use list keeps the
candidate defined and above `n` in index. -/
theorem pd_intersect_uses_spec {G : PEG} {root : Nat} {σ : PdMap}
    (hinv : TreeInv G root σ) (n ifuel : Nat) :
    ∀ (us : List Nat) (idom r : Nat) (pidom : PdNode),
      (∀ u ∈ us, ∀ pu, σ u = some pu → n < pu.index) →
      σ idom = some pidom → pidom.defined = true → n < pidom.index →
      pd_intersect_uses σ ifuel us idom = some r →
      ∃ pr, σ r = some pr ∧ pr.defined = true ∧ n < pr.index := by
  intro us
  induction us with
  | nil =>
    intro idom r pidom _ hid hdef hidx hrun
    cases Option.some.inj hrun
    exact ⟨pidom, hid, hdef, hidx⟩
  | cons u us ih =>
    intro idom r pidom hbound hid hdef hidx hrun
    unfold pd_intersect_uses at hrun
    split at hrun
    · exact ih idom r pidom
        (fun u' hu' => hbound u' (List.mem_cons_of_mem _ hu')) hid hdef hidx hrun
    · next pdu hu =>
      split at hrun
      · next hcond =>
        split at hrun
        · exact Option.noConfusion hrun
        · next i hint =>
          obtain ⟨pi, hpi, hpidef, hpiidx⟩ :=
            pd_compute_intersect_spec hinv n ifuel u idom i pdu pidom hu
              hcond.2 (hbound u (List.mem_cons_self _ _) pdu hu)
              hid hdef hidx hint
          exact ih i r pi
            (fun u' hu' => hbound u' (List.mem_cons_of_mem _ hu'))
            hpi hpidef hpiidx hrun
      · exact ih idom r pidom
          (fun u' hu' => hbound u' (List.mem_cons_of_mem _ hu')) hid hdef hidx hrun

/-- Termination of the intersection walk: under the tree invariant with
pairwise-distinct indices, started from two defined nodes, the two-finger
walk reaches a common node within fuel
`(rootIdx - index lhs) + (rootIdx - index rhs) + 1`: the finger with the
smaller index moves to its parent, whose index is strictly larger, and
both fingers stay bounded by the root's index. -/
theorem intersect_terminates {G : PEG} {root : Nat} {σ : PdMap}
    (hinv : TreeInv G root σ) (hinj : IdxInj σ) (rp : PdNode)
    (hr : σ root = some rp) :
    ∀ (k a b : Nat) (pa pb : PdNode),
      σ a = some pa → pa.defined = true →
      σ b = some pb → pb.defined = true →
      (rp.index - pa.index) + (rp.index - pb.index) < k →
      ∃ res, pd_compute_intersect σ k a b = some res := by
  intro k
  induction k with
  | zero =>
    intro a b pa pb _ _ _ _ hm
    omega
  | succ k ih =>
    intro a b pa pb ha hadef hb hbdef hm
    by_cases hab : a = b
    · refine ⟨a, ?_⟩
      unfold pd_compute_intersect
      rw [if_pos hab]
    · have hne : pa.index ≠ pb.index := fun h => hab (hinj a b pa pb ha hb h)
      have hBa : a ≠ root → pa.index < rp.index :=
        fun h => hinv.rootMax a pa rp ha hr h
      have hBb : b ≠ root → pb.index < rp.index :=
        fun h => hinv.rootMax b pb rp hb hr h
      rcases Nat.lt_or_ge pa.index pb.index with hcmp | hge
      · have haroot : a ≠ root := by
          intro h
          rw [h] at ha
          rw [ha] at hr
          cases Option.some.inj hr
          have : b ≠ root := fun hbr => hab (h.trans hbr.symm)
          have := hBb this
          omega
        obtain ⟨p, pp, hpar, hps, hppdef, hlt⟩ :=
          hinv.parentDef a pa ha haroot hadef
        have hppb : pp.index ≤ rp.index := by
          by_cases hpr : p = root
          · rw [hpr] at hps
            rw [hps] at hr
            rw [Option.some.inj hr]
          · exact le_of_lt (hinv.rootMax p pp rp hps hr hpr)
        have hpa : pa.index < rp.index := hBa haroot
        obtain ⟨res, hres⟩ := ih p b pp pb hps hppdef hb hbdef (by omega)
        refine ⟨res, ?_⟩
        unfold pd_compute_intersect
        rw [if_neg hab, ha, hb]
        show (if pa.index < pb.index then
            match pa.parent with
            | some lp => pd_compute_intersect σ k lp b
            | none => none
          else if pb.index < pa.index then
            match pb.parent with
            | some rp2 => pd_compute_intersect σ k a rp2
            | none => none
          else none) = some res
        rw [if_pos hcmp, hpar]
        exact hres
      · have hcmp : pb.index < pa.index := by omega
        have hbroot : b ≠ root := by
          intro h
          rw [h] at hb
          rw [hb] at hr
          cases Option.some.inj hr
          have : a ≠ root := fun har => hab (har.trans h.symm)
          have := hBa this
          omega
        obtain ⟨p, pp, hpar, hps, hppdef, hlt⟩ :=
          hinv.parentDef b pb hb hbroot hbdef
        have hppb : pp.index ≤ rp.index := by
          by_cases hpr : p = root
          · rw [hpr] at hps
            rw [hps] at hr
            rw [Option.some.inj hr]
          · exact le_of_lt (hinv.rootMax p pp rp hps hr hpr)
        have hpb : pb.index < rp.index := hBb hbroot
        obtain ⟨res, hres⟩ := ih a p pa pp ha hadef hps hppdef (by omega)
        refine ⟨res, ?_⟩
        unfold pd_compute_intersect
        rw [if_neg hab, ha, hb]
        show (if pa.index < pb.index then
            match pa.parent with
            | some lp => pd_compute_intersect σ k lp b
            | none => none
          else if pb.index < pa.index then
            match pb.parent with
            | some rp2 => pd_compute_intersect σ k a rp2
            | none => none
          else none) = some res
        rw [if_neg (by omega), if_pos hcmp, hpar]
        exact hres

theorem computeDeps_of_compute (G : PEG) (root fuel : Nat)
    (h : ComputeInvSpec G root fuel) : ComputeDepsInvSpec G root fuel := by
  intro ds
  induction ds with
  | nil =>
    intro V σ ch0 V' σ' ch hinv hrun
    have hrun' : (Except.ok (V, σ, ch0) : Except PdErr (List Nat × PdMap × Bool))
        = .ok (V', σ', ch) := hrun
    rw [Except.ok.injEq, Prod.mk.injEq, Prod.mk.injEq] at hrun'
    rw [← hrun'.2.1]
    exact hinv
  | cons d ds ih =>
    intro V σ ch0 V' σ' ch hinv hrun
    rw [show pd_compute_deps (pd_compute G root fuel) (d :: ds) V σ ch0 =
        (match pd_compute G root fuel d V σ with
         | .error e => .error e
         | .ok (V1, σ1, ch1) =>
           pd_compute_deps (pd_compute G root fuel) ds V1 σ1 (ch0 || ch1))
        from rfl] at hrun
    cases hd1 : pd_compute G root fuel d V σ with
    | error e => rw [hd1] at hrun; exact Except.noConfusion hrun
    | ok p1 =>
      obtain ⟨V1, σ1, ch1⟩ := p1
      rw [hd1] at hrun
      have hrun2 : pd_compute_deps (pd_compute G root fuel) ds V1 σ1
          (ch0 || ch1) = .ok (V', σ', ch) := hrun
      exact ih V1 σ1 (ch0 || ch1) V' σ' ch (h d V σ V1 σ1 ch1 hinv hd1) hrun2

theorem compute_inv_all (G : PEG) (root : Nat) :
    ∀ fuel, ComputeInvSpec G root fuel := by
  intro fuel
  induction fuel with
  | zero =>
    intro irn V σ V' σ' ch _ hrun
    exact Except.noConfusion hrun
  | succ fuel ih =>
    have hdeps := computeDeps_of_compute G root fuel ih
    intro irn V σ V' σ' ch hinv hrun
    unfold pd_compute at hrun
    by_cases hv : irn ∈ V
    · rw [if_pos hv] at hrun
      rw [Except.ok.injEq, Prod.mk.injEq, Prod.mk.injEq] at hrun
      rw [← hrun.2.1]
      exact hinv
    · rw [if_neg hv] at hrun
      by_cases hr : irn = root
      · rw [if_pos hr] at hrun
        exact hdeps (G.deps irn) (irn :: V) σ false V' σ' ch hinv hrun
      · rw [if_neg hr] at hrun
        split at hrun
        · exact Except.noConfusion hrun
        · next pdn hσ =>
          split at hrun
          · exact Except.noConfusion hrun
          · next idom0 hfi =>
            split at hrun
            · exact Except.noConfusion hrun
            · next idom hiu =>
              split at hrun
              · next hcond =>
                obtain ⟨hmem0, p0, hp0, hp0def⟩ :=
                  pd_find_idom_spec σ (G.uses irn) idom0 hfi
                have hbound : ∀ u ∈ G.uses irn, ∀ pu, σ u = some pu →
                    pdn.index < pu.index :=
                  fun u hu pu hpu => hinv.useIdx irn pdn u pu hσ hpu hu
                obtain ⟨pidom, hpidom, hpiddef, hpidlt⟩ :=
                  pd_intersect_uses_spec hinv pdn.index fuel (G.uses irn)
                    idom0 idom p0 hbound hp0 hp0def
                    (hbound idom0 hmem0 p0 hp0) hiu
                have hinv2 := treeInv_reparent hinv hσ hr hpidom hpiddef
                  hpidlt hcond
                exact hdeps (G.deps irn) (irn :: V)
                  (pd_mark_defined (pd_set_parent σ idom irn) irn) true
                  V' σ' ch hinv2 hrun
              · exact hdeps (G.deps irn) (irn :: V) σ false V' σ' ch hinv hrun

/-- The outer `do/while` fixpoint loop preserves the tree invariant. -/
theorem pd_fix_inv (G : PEG) (root : Nat) :
    ∀ (fuel : Nat) (σ σ' : PdMap), TreeInv G root σ →
      pd_fix G root fuel σ = .ok σ' → TreeInv G root σ' := by
  intro fuel
  induction fuel with
  | zero =>
    intro σ σ' _ hrun
    exact Except.noConfusion hrun
  | succ fuel ih =>
    intro σ σ' hinv hrun
    unfold pd_fix at hrun
    cases hp : pd_compute G root fuel root [] σ with
    | error e => rw [hp] at hrun; exact Except.noConfusion hrun
    | ok p1 =>
      obtain ⟨V1, σ1, ch1⟩ := p1
      rw [hp] at hrun
      have hinv1 := compute_inv_all G root fuel root [] σ V1 σ1 ch1 hinv hp
      cases ch1 with
      | true =>
        have hrun2 : pd_fix G root fuel σ1 = .ok σ' := hrun
        exact ih σ1 σ' hinv1 hrun2
      | false =>
        have hrun2 : (Except.ok σ1 : Except PdErr PdMap) = .ok σ' := hrun
        rw [← Except.ok.inj hrun2]
        exact hinv1

theorem shapePres_refl (σ : PdMap) : ShapePres σ σ := by
  intro u
  exact ⟨fun pdn h => ⟨pdn, h, rfl, rfl, rfl⟩, fun h => Or.inl h⟩

theorem shapePres_trans {σ1 σ2 σ3 : PdMap} (h12 : ShapePres σ1 σ2)
    (h23 : ShapePres σ2 σ3) : ShapePres σ1 σ3 := by
  intro u
  constructor
  · intro pdn h
    obtain ⟨pdn', h', hd, hc, hp⟩ := (h12 u).1 pdn h
    obtain ⟨pdn'', h'', hd', hc', hp'⟩ := (h23 u).1 pdn' h'
    exact ⟨pdn'', h'', hd'.trans hd, hc'.trans hc, hp'.trans hp⟩
  · intro h
    rcases (h12 u).2 h with h2 | ⟨pdn', h', hd, hc, hp⟩
    · exact (h23 u).2 h2
    · obtain ⟨pdn'', h'', hd', hc', hp'⟩ := (h23 u).1 pdn' h'
      exact Or.inr ⟨pdn'', h'', hd'.trans hd, hc'.trans hc, hp'.trans hp⟩

/-- The per-node write of the Index Assigner is shape-preserving. -/
theorem shapePres_post_write (σ1 : PdMap) (irn c1 : Nat) :
    ShapePres σ1 (setPd (phase_get_or_set σ1 irn).2 irn
      { (phase_get_or_set σ1 irn).1 with irn := irn, index := c1 }) := by
  intro u
  by_cases hu : u = irn
  · subst hu
    constructor
    · intro pdn h
      have hg : phase_get_or_set σ1 u = (pdn, σ1) := by
        unfold phase_get_or_set
        rw [h]
      refine ⟨{ pdn with irn := u, index := c1 }, ?_, rfl, rfl, rfl⟩
      rw [hg]
      exact setPd_same σ1 u _
    · intro h
      have hg : phase_get_or_set σ1 u = (pd_init_node, setPd σ1 u pd_init_node) := by
        unfold phase_get_or_set
        rw [h]
      refine Or.inr ⟨{ pd_init_node with irn := u, index := c1 }, ?_, rfl, rfl, rfl⟩
      rw [hg]
      exact setPd_same _ u _
  · constructor
    · intro pdn h
      refine ⟨pdn, ?_, rfl, rfl, rfl⟩
      rw [setPd_other _ _ _ _ hu, phase_get_or_set_other _ _ _ hu]
      exact h
    · intro h
      refine Or.inl ?_
      rw [setPd_other _ _ _ _ hu, phase_get_or_set_other _ _ _ hu]
      exact h

theorem postShapeList_of_node (G : PEG) (fuel : Nat)
    (hn : PostShapeNode G fuel) : PostShapeList G fuel := by
  intro ds
  induction ds with
  | nil =>
    intro V σ c V' σ' c' hrun
    have hrun' : some (V, σ, c) = some (V', σ', c') := hrun
    rw [Option.some.injEq, Prod.mk.injEq, Prod.mk.injEq] at hrun'
    obtain ⟨-, hσ, -⟩ := hrun'
    rw [← hσ]
    exact shapePres_refl σ
  | cons d ds' ih =>
    intro V σ c V' σ' c' hrun
    rw [show pd_post_deps (pd_compute_indices_post G fuel) (d :: ds') V σ c =
        (match pd_compute_indices_post G fuel d V σ c with
         | none => none
         | some (V1, σ1, c1) =>
           pd_post_deps (pd_compute_indices_post G fuel) ds' V1 σ1 c1)
        from rfl] at hrun
    cases hd1 : pd_compute_indices_post G fuel d V σ c with
    | none => rw [hd1] at hrun; exact Option.noConfusion hrun
    | some p1 =>
      obtain ⟨V1, σ1, c1⟩ := p1
      rw [hd1] at hrun
      have hrun2 : pd_post_deps (pd_compute_indices_post G fuel) ds' V1 σ1 c1 =
          some (V', σ', c') := hrun
      exact shapePres_trans (hn d V σ c V1 σ1 c1 hd1)
        (ih V1 σ1 c1 V' σ' c' hrun2)

theorem postShapeNode_all (G : PEG) : ∀ fuel, PostShapeNode G fuel := by
  intro fuel
  induction fuel with
  | zero =>
    intro irn V σ c V' σ' c' hrun
    exact Option.noConfusion hrun
  | succ fuel ih =>
    have hlist := postShapeList_of_node G fuel ih
    intro irn V σ c V' σ' c' hrun
    by_cases hv : irn ∈ V
    · rw [pd_post_visited G fuel irn V σ c hv] at hrun
      rw [Option.some.injEq, Prod.mk.injEq, Prod.mk.injEq] at hrun
      obtain ⟨-, hσ, -⟩ := hrun
      rw [← hσ]
      exact shapePres_refl σ
    · rw [pd_post_fresh G fuel irn V σ c hv] at hrun
      cases hd1 : pd_post_deps (pd_compute_indices_post G fuel) (G.deps irn)
          (irn :: V) σ c with
      | none => rw [hd1] at hrun; exact Option.noConfusion hrun
      | some p1 =>
        obtain ⟨V1, σ1, c1⟩ := p1
        rw [hd1] at hrun
        have hrun2 : some (V1, setPd (phase_get_or_set σ1 irn).2 irn
            { (phase_get_or_set σ1 irn).1 with irn := irn, index := c1 },
            c1 + 1) = some (V', σ', c') := hrun
        rw [Option.some.injEq, Prod.mk.injEq, Prod.mk.injEq] at hrun2
        obtain ⟨-, hσ, -⟩ := hrun2
        rw [← hσ]
        exact shapePres_trans (hlist _ _ _ _ _ _ _ hd1)
          (shapePres_post_write σ1 irn c1)

theorem pdInitStart_sink (G : PEG) :
    pdInitStart G G.sink = some ⟨G.sink, true, 0, 0, [], none⟩ := by
  unfold pdInitStart
  rw [setPd_same]
  rfl

theorem pdInitStart_other (G : PEG) (u : Nat) (h : u ≠ G.sink) :
    pdInitStart G u = none := by
  unfold pdInitStart
  rw [setPd_other _ _ _ _ h, phase_get_or_set_other _ _ _ h]
  rfl

/-- After the Index Assigner runs from the root state, the full tree
invariant holds: only the root is `defined`, nobody is attached yet, and
the stored post-order indices strictly increase from every node to each of
its uses, with the root's index strictly largest. -/
theorem treeInv_after_post (G : PEG) (hacyc : AcyclicDeps G)
    (hcons : UsesConsistent G) (fuel : Nat) (V' : List Nat) (σ2 : PdMap)
    (n : Nat)
    (hrun : pd_compute_indices_post G fuel G.sink [] (pdInitStart G) 0 =
      some (V', σ2, n)) :
    TreeInv G G.sink σ2 := by
  have hinv0 : PostInv G (pdInitStart G) [] [] 0 :=
    ⟨fun g hg => absurd hg (List.not_mem_nil g),
     fun v hv _ => absurd hv (List.not_mem_nil v)⟩
  obtain ⟨N, hVeq, hnd, hnotV, hmem, hreach, hfr, hperm, hle, hinvf, hlast⟩ :=
    postNode_all G fuel G.sink [] (pdInitStart G) 0 [] V' σ2 n hacyc hrun hinv0
      (fun g hg => absurd hg (List.not_mem_nil g))
  have hNV : V' = N := hVeq.trans (List.append_nil N)
  have hlast2 : ∃ pdnR, σ2 G.sink = some pdnR ∧ pdnR.index + 1 = n := by
    rcases hlast with h | h
    · exact absurd h (List.not_mem_nil _)
    · exact h
  obtain ⟨pdnR, hσR, hidxR⟩ := hlast2
  have hshape : ShapePres (pdInitStart G) σ2 :=
    postShapeNode_all G fuel G.sink [] (pdInitStart G) 0 V' σ2 n hrun
  obtain ⟨pdn', hσ', hd, hc2, hp2⟩ := (hshape G.sink).1 _ (pdInitStart_sink G)
  rw [hσR] at hσ'
  have he : pdnR = pdn' := Option.some.inj hσ'
  have hRdef : pdnR.defined = true := by rw [he]; exact hd
  have hRch : pdnR.children = [] := by rw [he]; exact hc2
  have hRpar : pdnR.parent = none := by rw [he]; exact hp2
  have hshadow : ∀ v pv, σ2 v = some pv → v ∈ V' := by
    intro v pv hv
    by_cases hvV : v ∈ V'
    · exact hvV
    · exfalso
      have hvN : v ∉ N := by rw [← hNV]; exact hvV
      have hfrv := hfr v hvN
      by_cases hvs : v = G.sink
      · exact hvV (hvs ▸ hmem)
      · rw [hfrv, pdInitStart_other G v hvs] at hv
        exact Option.noConfusion hv
  have hfresh : ∀ v pv, σ2 v = some pv → v ≠ G.sink →
      pv.defined = false ∧ pv.children = [] ∧ pv.parent = none := by
    intro v pv hv hvs
    rcases (hshape v).2 (pdInitStart_other G v hvs) with hnone | hsome
    · rw [hnone] at hv
      exact Option.noConfusion hv
    · obtain ⟨pdn2, hσ2, hd2, hc3, hp3⟩ := hsome
      rw [hv] at hσ2
      have := Option.some.inj hσ2
      rw [this]
      exact ⟨hd2, hc3, hp3⟩
  have hblack := hinvf.2
  have hndmap : (N.map (idxOf σ2)).Nodup :=
    hperm.nodup_iff.mpr (List.nodup_range' _ _)
  have hinj : ∀ x ∈ N, ∀ y ∈ N, idxOf σ2 x = idxOf σ2 y → x = y :=
    fun x hx y hy hxy => List.inj_on_of_nodup_map hndmap hx hy hxy
  refine ⟨⟨pdnR, hσR, hRdef, hRpar⟩, ?_, ?_, ?_, ?_, ?_, ?_, ?_⟩
  · intro v pv r hv hr hvne
    rw [hσR] at hr
    have hrR : pdnR = r := Option.some.inj hr
    have hvV : v ∈ V' := hshadow v pv hv
    obtain ⟨pdn, hσv, hidx, -⟩ := hblack v hvV (List.not_mem_nil v)
    rw [hv] at hσv
    have hpv : pv = pdn := Option.some.inj hσv
    rcases Nat.lt_or_ge pv.index pdnR.index with hlt | hge
    · rw [← hrR]; exact hlt
    · exfalso
      have hub : pv.index < n := by rw [hpv]; exact hidx
      have heq : pv.index = pdnR.index := by omega
      have hvN : v ∈ N := by rw [← hNV]; exact hvV
      have hsN : G.sink ∈ N := by rw [← hNV]; exact hmem
      have hx1 : idxOf σ2 v = pv.index := by unfold idxOf; rw [hv]
      have hx2 : idxOf σ2 G.sink = pdnR.index := by unfold idxOf; rw [hσR]
      exact hvne (hinj v hvN G.sink hsN (by rw [hx1, hx2, heq]))
  · intro v pdn hv hvne hdef
    have hf := (hfresh v pdn hv hvne).1
    rw [hdef] at hf
    exact absurd hf (by decide)
  · intro v pdn hv hund
    by_cases hvs : v = G.sink
    · rw [hvs] at hv
      rw [hσR] at hv
      have := Option.some.inj hv
      rw [← this] at hund
      rw [hRdef] at hund
      exact absurd hund (by decide)
    · exact (hfresh v pdn hv hvs).2.2
  · intro p pp hp c hc
    have hch : pp.children = [] := by
      by_cases hps : p = G.sink
      · rw [hps] at hp
        rw [hσR] at hp
        have := Option.some.inj hp
        rw [← this]
        exact hRch
      · exact (hfresh p pp hp hps).2.1
    rw [hch] at hc
    exact absurd hc (List.not_mem_nil c)
  · intro v pdn hv p hpar
    have hpn : pdn.parent = none := by
      by_cases hvs : v = G.sink
      · rw [hvs] at hv
        rw [hσR] at hv
        have := Option.some.inj hv
        rw [← this]
        exact hRpar
      · exact (hfresh v pdn hv hvs).2.2
    rw [hpn] at hpar
    exact Option.noConfusion hpar
  · intro p pp hp
    have hch : pp.children = [] := by
      by_cases hps : p = G.sink
      · rw [hps] at hp
        rw [hσR] at hp
        have := Option.some.inj hp
        rw [← this]
        exact hRch
      · exact (hfresh p pp hp hps).2.1
    rw [hch]
    exact List.nodup_nil
  · intro v pv u pu hv hu hus
    have hdep : v ∈ G.deps u := hcons v u hus
    have huV : u ∈ V' := hshadow u pu hu
    obtain ⟨pdu', hσu', hidxu', hdeps'⟩ := hblack u huV (List.not_mem_nil u)
    rw [hu] at hσu'
    have hpu : pu = pdu' := Option.some.inj hσu'
    obtain ⟨-, -, pd, hpd, hpidx⟩ := hdeps' v hdep
    rw [hv] at hpd
    have hpv : pv = pd := Option.some.inj hpd
    rw [hpv, hpu]
    exact hpidx

/-- Under the invariant every defined shadow reaches the root along parent
links (parent chains are finite and acyclic because `index` strictly
increases toward the root). -/
theorem treeInv_reachesRoot {G : PEG} {root : Nat} {σ : PdMap}
    (hinv : TreeInv G root σ) :
    ∀ v pv, σ v = some pv → pv.defined = true → ReachesRoot σ root v := by
  obtain ⟨r, hr, hrdef, hrpar⟩ := hinv.rootRec
  suffices h : ∀ k v pv, σ v = some pv → pv.defined = true →
      r.index - pv.index ≤ k → ReachesRoot σ root v by
    intro v pv hv hd
    exact h (r.index - pv.index) v pv hv hd (le_refl _)
  intro k
  induction k with
  | zero =>
    intro v pv hv hd hle
    by_cases hvr : v = root
    · rw [hvr]
      exact ReachesRoot.base
    · have := hinv.rootMax v pv r hv hr hvr
      omega
  | succ k ih =>
    intro v pv hv hd hle
    by_cases hvr : v = root
    · rw [hvr]
      exact ReachesRoot.base
    · obtain ⟨p, pp, hpar, hps, hppdef, hlt⟩ :=
        hinv.parentDef v pv hv hvr hd
      have hppbound : pp.index ≤ r.index := by
        by_cases hpr : p = root
        · rw [hpr] at hps
          rw [hps] at hr
          rw [Option.some.inj hr]
        · exact le_of_lt (hinv.rootMax p pp r hps hr hpr)
      exact ReachesRoot.step hv hpar (ih p pp hps hppdef (by omega))

/-- Under the invariant every attached node occurs exactly once in its
unique parent's children list and in nobody else's. -/
theorem treeInv_child_unique {G : PEG} {root : Nat} {σ : PdMap}
    (hinv : TreeInv G root σ) :
    ∀ v pv, σ v = some pv → v ≠ root → pv.defined = true →
      ∃ p, pv.parent = some p ∧
        (∃ pp, σ p = some pp ∧ pp.children.count v = 1) ∧
        (∀ q pq, σ q = some pq → v ∈ pq.children → q = p) := by
  intro v pv hv hvr hdef
  obtain ⟨p, pp, hpar, hps, -, -⟩ := hinv.parentDef v pv hv hvr hdef
  refine ⟨p, hpar, ?_, ?_⟩
  · obtain ⟨pp2, hps2, hmem⟩ := hinv.parentChild v pv hv p hpar
    rw [hps] at hps2
    cases Option.some.inj hps2
    exact ⟨pp, hps, List.count_eq_one_of_mem (hinv.childNodup p pp hps) hmem⟩
  · intro q pq hq hmemq
    obtain ⟨pc, hpc, hpcp, -⟩ := hinv.childParent q pq hq v hmemq
    rw [hv] at hpc
    cases Option.some.inj hpc
    rw [hpar] at hpcp
    exact (Option.some.inj hpcp).symm

theorem diamond_acyclic : AcyclicDeps diamondG := by
  apply acyclicDeps_of_rank diamondG
    (fun n => if n = 0 then 2 else if n = 3 then 0 else 1)
  intro v d hd
  by_cases h0 : v = 0
  · subst h0
    have hd' : d = 1 ∨ d = 2 := by simpa [diamondG] using hd
    rcases hd' with h | h <;> subst h <;> decide
  · by_cases h1 : v = 1
    · subst h1
      have hd' : d = 3 := by simpa [diamondG] using hd
      subst hd'
      decide
    · by_cases h2 : v = 2
      · subst h2
        have hd' : d = 3 := by simpa [diamondG] using hd
        subst hd'
        decide
      · have : False := by simp [diamondG, h0, h1, h2] at hd
        exact this.elim

theorem diamond_usesConsistent : UsesConsistent diamondG := by
  intro v u hu
  by_cases h1 : v = 1
  · subst h1
    have hu' : u = 0 := by simpa [diamondG] using hu
    subst hu'
    decide
  · by_cases h2 : v = 2
    · subst h2
      have hu' : u = 0 := by simpa [diamondG] using hu
      subst hu'
      decide
    · by_cases h3 : v = 3
      · subst h3
        have hu' : u = 1 ∨ u = 2 := by simpa [diamondG] using hu
        rcases hu' with h | h <;> subst h <;> decide
      · have : False := by simp [diamondG, h1, h2, h3] at hu
        exact this.elim

/-- C4 counterexample: during the construction of the diamond graph's tree,
node `1` has a DomNode shadow but no parent just after the index pass, and
node `2` still has no parent between the second and third reparenting steps
of the first solver pass (after `pd_compute` visited node `1`, which
attached `1` under `0` and `3` under `1`); neither node is the root.  So
not every non-root DomNode has exactly one parent at every point during
construction. -/
theorem C4_counterexample :
    c4Mid 1 = some ⟨1, false, 1, 0, [], none⟩ ∧
    (1 : Nat) ≠ diamondG.sink ∧
    ((pd_compute diamondG diamondG.sink 50 1 [0] c4Mid).map fun p => p.2.1 0)
      = .ok (some ⟨0, true, 3, 0, [1], none⟩) ∧
    ((pd_compute diamondG diamondG.sink 50 1 [0] c4Mid).map fun p => p.2.1 3)
      = .ok (some ⟨3, true, 0, 0, [], some 1⟩) ∧
    ((pd_compute diamondG diamondG.sink 50 1 [0] c4Mid).map fun p => p.2.1 2)
      = .ok (some ⟨2, false, 2, 0, [], none⟩) ∧
    (2 : Nat) ≠ diamondG.sink := by
  refine ⟨?_, ?_, ?_, ?_, ?_, ?_⟩ <;> decide

/-- C4 (amended): throughout construction the *defined* DomNodes form a
tree rooted at the sink's DomNode while still-undefined shadows are
unattached.  Concretely: (1) `TreeInv` holds right after the Index
Assigner; (2) each atomic reparenting step (detach, attach, mark defined)
preserves it, as do (3) every solver visit and (4) the whole fixpoint
loop; and (5) the invariant implies that every defined shadow reaches the
root along parent links (finite acyclic parent chains), that every
non-root defined shadow has exactly one parent, occurring exactly once in
that parent's children list and in no other children list, and that every
undefined shadow has no parent. -/
theorem C4_attached_tree (G : PEG) (hacyc : AcyclicDeps G)
    (hcons : UsesConsistent G) :
    (∀ fuel V' σ2 n,
      pd_compute_indices_post G fuel G.sink [] (pdInitStart G) 0 =
        some (V', σ2, n) →
      TreeInv G G.sink σ2) ∧
    (∀ σ irn idom pdn pidom, TreeInv G G.sink σ →
      σ irn = some pdn → irn ≠ G.sink → σ idom = some pidom →
      pidom.defined = true → pdn.index < pidom.index →
      pdn.parent ≠ some idom →
      TreeInv G G.sink (pd_mark_defined (pd_set_parent σ idom irn) irn)) ∧
    (∀ fuel irn V σ V' σ' ch, TreeInv G G.sink σ →
      pd_compute G G.sink fuel irn V σ = .ok (V', σ', ch) →
      TreeInv G G.sink σ') ∧
    (∀ fuel σ σ', TreeInv G G.sink σ → pd_fix G G.sink fuel σ = .ok σ' →
      TreeInv G G.sink σ') ∧
    (∀ σ, TreeInv G G.sink σ →
      (∀ v pv, σ v = some pv → pv.defined = true →
        ReachesRoot σ G.sink v) ∧
      (∀ v pv, σ v = some pv → v ≠ G.sink → pv.defined = true →
        ∃ p, pv.parent = some p ∧
          (∃ pp, σ p = some pp ∧ pp.children.count v = 1) ∧
          (∀ q pq, σ q = some pq → v ∈ pq.children → q = p)) ∧
      (∀ v pv, σ v = some pv → pv.defined = false → pv.parent = none)) := by
  refine ⟨?_, ?_, ?_, ?_, ?_⟩
  · intro fuel V' σ2 n hrun
    exact treeInv_after_post G hacyc hcons fuel V' σ2 n hrun
  · intro σ irn idom pdn pidom hinv hirn hroot hidom hdef hlt hne
    exact treeInv_reparent hinv hirn hroot hidom hdef hlt hne
  · intro fuel irn V σ V' σ' ch hinv hrun
    exact compute_inv_all G G.sink fuel irn V σ V' σ' ch hinv hrun
  · intro fuel σ σ' hinv hrun
    exact pd_fix_inv G G.sink fuel σ σ' hinv hrun
  · intro σ hinv
    exact ⟨treeInv_reachesRoot hinv, treeInv_child_unique hinv,
      hinv.undefNoParent⟩

theorem C4_witness : TreeInv diamondG diamondG.sink c4Mid :=
  (C4_attached_tree diamondG diamond_acyclic diamond_usesConsistent).1
    100 c4PostV c4Mid c4PostC rfl

/-- Helper for C10: the `k`-th yield of the iterator over a child list is
the `k`-th list element. -/
theorem iterNth_eq_get? (l : List Nat) : ∀ k, iterNth l k = l.get? k := by
  induction l with
  | nil =>
    intro k
    cases k with
    | zero => rfl
    | succ k =>
      induction k with
      | zero => rfl
      | succ k ih => exact ih
  | cons c rest ih =>
    intro k
    cases k with
    | zero => rfl
    | succ k => exact ih k

/-- C10: for a node with a DomNode shadow, initialising a children iterator
and repeatedly calling `pd_children_iter_next` yields exactly the entries
of its `children` list in order (`k`-th call yields the `k`-th child),
yields NULL from position `length` on (and keeps yielding NULL), and the
number of non-NULL yields equals `pd_get_children_count`. -/
theorem C10_children_iteration (σ : PdMap) (irn : Nat) (pdn : PdNode)
    (h : σ irn = some pdn) :
    pd_children_iter_init σ irn = .ok pdn.children ∧
    (∀ k, iterNth pdn.children k = pdn.children.get? k) ∧
    (∀ k, pdn.children.length ≤ k → iterNth pdn.children k = none) ∧
    pd_get_children_count σ irn = .ok pdn.children.length := by
  refine ⟨by simp [pd_children_iter_init, h], iterNth_eq_get? pdn.children,
    ?_, by simp [pd_get_children_count, h]⟩
  intro k hk
  rw [iterNth_eq_get? pdn.children k]
  exact List.get?_eq_none.mpr hk

theorem C10_witness :
    diamondMap 0 = some ⟨0, true, 0, 3, [1, 2, 3], none⟩ ∧
    pd_children_iter_init diamondMap 0 = .ok [1, 2, 3] ∧
    iterNth [1, 2, 3] 0 = some 1 ∧
    iterNth [1, 2, 3] 1 = some 2 ∧
    iterNth [1, 2, 3] 2 = some 3 ∧
    iterNth [1, 2, 3] 3 = none ∧
    iterNth [1, 2, 3] 7 = none ∧
    pd_get_children_count diamondMap 0 = .ok 3 :=
  ⟨rfl,
    (C10_children_iteration diamondMap 0 ⟨0, true, 0, 3, [1, 2, 3], none⟩ rfl).1,
    (C10_children_iteration diamondMap 0 ⟨0, true, 0, 3, [1, 2, 3], none⟩ rfl).2.1 0,
    (C10_children_iteration diamondMap 0 ⟨0, true, 0, 3, [1, 2, 3], none⟩ rfl).2.1 1,
    (C10_children_iteration diamondMap 0 ⟨0, true, 0, 3, [1, 2, 3], none⟩ rfl).2.1 2,
    (C10_children_iteration diamondMap 0 ⟨0, true, 0, 3, [1, 2, 3], none⟩ rfl).2.2.1 3 (by decide),
    (C10_children_iteration diamondMap 0 ⟨0, true, 0, 3, [1, 2, 3], none⟩ rfl).2.2.1 7 (by decide),
    (C10_children_iteration diamondMap 0 ⟨0, true, 0, 3, [1, 2, 3], none⟩ rfl).2.2.2⟩

end PegDom
